import Mathlib

/-!
Verification of the overlap-graph repository: a shallow embedding of its
interval / region algebra, the `RegionSet` collection, the NetworkX-backed
region intersection graph (`NxGraph`) and the clique-enumeration queries,
together with proofs deciding the frozen specification claims.

Conventions of the embedding:
- Python floats are modelled as rationals (`ℚ`).
- A Python method that can fail an `assert` (or raise) is modelled as a
  function returning `Option`; `none` is the aborted run.
- UUIDv4 generation is modelled by the fixed fresh placeholder string
  "uuid4"; no claim depends on the value of a generated identifier.
- Derived-region provenance ("intersect" / "union" back-references) is
  modelled as interned lists of region ids, following the spec's data
  model for back-references.
The `sources/datastructs/shapes` module (`Interval`, `Region`) is not part
of the provided source tree; its operations are modelled from the spec
(sections 3, 4.A and 6) and are marked `Modelled from the spec:` below.
-/

namespace OverlapGraph

/-- Modelled from the spec: a 1-D closed real interval `[lower, upper]`
(`sources/datastructs/shapes/interval.py` is absent from the source tree). -/
structure Interval where
  lower : ℚ
  upper : ℚ
deriving DecidableEq, Repr

/-- An interval is well-formed when `lower ≤ upper` (the shape invariant the
Python constructor asserts). -/
def Interval.valid (i : Interval) : Prop := i.lower ≤ i.upper

instance (i : Interval) : Decidable i.valid :=
  inferInstanceAs (Decidable (i.lower ≤ i.upper))

/-- Modelled from the spec: `overlaps(a, b) ⇔ a.lower ≤ b.upper ∧ b.lower ≤ a.upper`
(touching counts as overlap). -/
def Interval.overlapsI (a b : Interval) : Bool :=
  decide (a.lower ≤ b.upper) && decide (b.lower ≤ a.upper)

/-- Modelled from the spec: `encloses(a, b)` holds when `b` lies inside `a`. -/
def Interval.enclosesI (a b : Interval) : Bool :=
  decide (a.lower ≤ b.lower) && decide (b.upper ≤ a.upper)

/-- Modelled from the spec: `intersect` returns `[max lower, min upper]` when
non-empty, else none. -/
def Interval.intersectI (a b : Interval) : Option Interval :=
  if max a.lower b.lower ≤ min a.upper b.upper then
    some ⟨max a.lower b.lower, min a.upper b.upper⟩
  else
    none

/-- Modelled from the spec: `union` returns the bounding interval. -/
def Interval.unionI (a b : Interval) : Interval :=
  ⟨min a.lower b.lower, max a.upper b.upper⟩

/-- Per-dimension overlap of two interval lists; `false` when the
dimensionalities differ. -/
def intervalsOverlap : List Interval → List Interval → Bool
  | [], [] => true
  | a :: as, b :: bs => a.overlapsI b && intervalsOverlap as bs
  | _, _ => false

/-- Per-dimension enclosure of two interval lists; `false` when the
dimensionalities differ. -/
def intervalsEnclose : List Interval → List Interval → Bool
  | [], [] => true
  | a :: as, b :: bs => a.enclosesI b && intervalsEnclose as bs
  | _, _ => false

/-- Per-dimension intersection of two interval lists; `none` when the
dimensionalities differ or some dimension's intersection is empty. -/
def intervalsIntersect : List Interval → List Interval → Option (List Interval)
  | [], [] => some []
  | a :: as, b :: bs =>
    match a.intersectI b, intervalsIntersect as bs with
    | some i, some is => some (i :: is)
    | _, _ => none
  | _, _ => none

/-- Modelled from the spec: a Region is a fixed-dimension tuple of intervals
plus a string id and optional provenance back-references.  `iparents` models
the `intersect` back-reference id list, `uparents` the `union` one
(`sources/datastructs/shapes/region.py` is absent from the source tree). -/
structure Region where
  id : String
  intervals : List Interval
  iparents : Option (List String) := none
  uparents : Option (List String) := none
deriving DecidableEq, Repr

/-- The dimensionality of a region. -/
def Region.dimension (r : Region) : Nat := r.intervals.length

/-- All of a region's intervals are well-formed. -/
def Region.valid (r : Region) : Prop := ∀ i ∈ r.intervals, i.valid

instance (r : Region) : Decidable r.valid := by
  unfold Region.valid; infer_instance

/-- Modelled from the spec: `Region.overlaps(other)` is the conjunction over
all dimensions of per-interval overlaps. -/
def Region.overlaps (a b : Region) : Bool :=
  intervalsOverlap a.intervals b.intervals

/-- Modelled from the spec: `Region.encloses(other)` is the conjunction over
all dimensions of per-interval enclosure. -/
def Region.encloses (a b : Region) : Bool :=
  intervalsEnclose a.intervals b.intervals

/-- Modelled from the spec: `Region.intersect(other, 'reference')` returns the
per-dimension intersection, recording `{mode: intersect, parents: [a, b]}`;
`none` when the regions do not overlap.  The freshly generated id of the
derived region is modelled deterministically from the parents' ids. -/
def Region.intersect (a b : Region) : Option Region :=
  (intervalsIntersect a.intervals b.intervals).map fun is =>
    { id := a.id ++ "&" ++ b.id, intervals := is,
      iparents := some [a.id, b.id], uparents := none }

/-- Modelled from the spec: `Region.union(other)` returns the bounding region
(per-dimension bounding intervals); `none` on a dimension mismatch, which the
Python constructor asserts. -/
def Region.union (a b : Region) : Option Region :=
  if a.intervals.length = b.intervals.length then
    some { id := "uuid4",
           intervals := List.zipWith Interval.unionI a.intervals b.intervals,
           iparents := none, uparents := none }
  else
    none

/-- Modelled from the spec: `Region.from_intersect(list, linked=True)` is the
n-ary fold of `intersect`; `none` when the common intersection is empty or the
list is empty; with linking, the parents are the full input list. -/
def Region.from_intersect (l : List Region) : Option Region :=
  match l with
  | [] => none
  | r :: rs =>
    (rs.foldl (fun acc s => acc.bind fun x => x.intersect s) (some r)).map
      fun x => { x with iparents := some (l.map Region.id) }

/-- Modelled from the spec: `Region.from_union(list)` is the n-ary fold of
`union`; `none` when the list is empty or dimensionalities mismatch. -/
def Region.from_union (l : List Region) : Option Region :=
  match l with
  | [] => none
  | r :: rs => rs.foldl (fun acc s => acc.bind fun x => x.union s) (some r)

/-! ### Basic lemmas about the interval algebra -/

theorem Interval.overlapsI_iff (a b : Interval) :
    a.overlapsI b = true ↔ a.lower ≤ b.upper ∧ b.lower ≤ a.upper := by
  simp [Interval.overlapsI]

theorem Interval.overlapsI_symm (a b : Interval) :
    a.overlapsI b = b.overlapsI a := by
  simp only [Interval.overlapsI]
  by_cases h1 : a.lower ≤ b.upper <;> by_cases h2 : b.lower ≤ a.upper <;>
    simp [h1, h2]

theorem Interval.enclosesI_iff (a b : Interval) :
    a.enclosesI b = true ↔ a.lower ≤ b.lower ∧ b.upper ≤ a.upper := by
  simp [Interval.enclosesI]

theorem Interval.enclosesI_refl (a : Interval) : a.enclosesI a = true := by
  simp [Interval.enclosesI]

theorem Interval.enclosesI_trans {a b c : Interval}
    (hab : a.enclosesI b = true) (hbc : b.enclosesI c = true) :
    a.enclosesI c = true := by
  rw [Interval.enclosesI_iff] at *
  exact ⟨le_trans hab.1 hbc.1, le_trans hbc.2 hab.2⟩

theorem Interval.unionI_enclosesI_left (a b : Interval) :
    (a.unionI b).enclosesI a = true := by
  simp [Interval.unionI, Interval.enclosesI]

theorem Interval.unionI_enclosesI_right (a b : Interval) :
    (a.unionI b).enclosesI b = true := by
  simp [Interval.unionI, Interval.enclosesI]

/-- A valid pair of overlapping intervals has a valid non-empty intersection. -/
theorem Interval.intersectI_some {a b : Interval}
    (ha : a.valid) (hb : b.valid) (hov : a.overlapsI b = true) :
    a.intersectI b = some ⟨max a.lower b.lower, min a.upper b.upper⟩ ∧
      (Interval.valid ⟨max a.lower b.lower, min a.upper b.upper⟩) := by
  rw [Interval.overlapsI_iff] at hov
  have h : max a.lower b.lower ≤ min a.upper b.upper :=
    max_le (le_min ha hov.1) (le_min hov.2 hb)
  exact ⟨by simp [Interval.intersectI, h], h⟩

/-- The intersection of two intervals overlaps a third interval exactly when
both of them do. -/
theorem Interval.intersectI_overlapsI {a b c s : Interval}
    (h : a.intersectI b = some c) :
    c.overlapsI s = (a.overlapsI s && b.overlapsI s) := by
  simp only [Interval.intersectI] at h
  split at h
  case isTrue hle =>
    cases h
    simp only [Interval.overlapsI]
    by_cases h1 : a.lower ≤ s.upper <;> by_cases h2 : s.lower ≤ a.upper <;>
      by_cases h3 : b.lower ≤ s.upper <;> by_cases h4 : s.lower ≤ b.upper <;>
      simp [h1, h2, h3, h4, max_le_iff, le_min_iff]
  case isFalse => cases h

/-- Validity transfers through interval intersection. -/
theorem Interval.intersectI_valid {a b c : Interval}
    (h : a.intersectI b = some c) : c.valid := by
  simp only [Interval.intersectI] at h
  split at h
  case isTrue hle => cases h; exact hle
  case isFalse => cases h

/-! ### Basic lemmas about the interval-list operations -/

theorem intervalsOverlap_symm (as bs : List Interval) :
    intervalsOverlap as bs = intervalsOverlap bs as := by
  induction as generalizing bs with
  | nil => cases bs <;> simp [intervalsOverlap]
  | cons a as ih =>
    cases bs with
    | nil => simp [intervalsOverlap]
    | cons b bs =>
      simp [intervalsOverlap, ih bs, Interval.overlapsI_symm a b]

theorem intervalsOverlap_length {as bs : List Interval}
    (h : intervalsOverlap as bs = true) : as.length = bs.length := by
  induction as generalizing bs with
  | nil => cases bs with
    | nil => rfl
    | cons b bs => simp [intervalsOverlap] at h
  | cons a as ih =>
    cases bs with
    | nil => simp [intervalsOverlap] at h
    | cons b bs =>
      simp only [intervalsOverlap, Bool.and_eq_true] at h
      simp [ih h.2]

theorem intervalsEnclose_length {as bs : List Interval}
    (h : intervalsEnclose as bs = true) : as.length = bs.length := by
  induction as generalizing bs with
  | nil => cases bs with
    | nil => rfl
    | cons b bs => simp [intervalsEnclose] at h
  | cons a as ih =>
    cases bs with
    | nil => simp [intervalsEnclose] at h
    | cons b bs =>
      simp only [intervalsEnclose, Bool.and_eq_true] at h
      simp [ih h.2]

theorem intervalsEnclose_refl (as : List Interval) :
    intervalsEnclose as as = true := by
  induction as with
  | nil => rfl
  | cons a as ih => simp [intervalsEnclose, Interval.enclosesI_refl, ih]

theorem intervalsEnclose_trans {as bs cs : List Interval}
    (hab : intervalsEnclose as bs = true) (hbc : intervalsEnclose bs cs = true) :
    intervalsEnclose as cs = true := by
  induction as generalizing bs cs with
  | nil =>
    cases bs with
    | nil => cases cs with
      | nil => rfl
      | cons c cs => simp [intervalsEnclose] at hbc
    | cons b bs => simp [intervalsEnclose] at hab
  | cons a as ih =>
    cases bs with
    | nil => simp [intervalsEnclose] at hab
    | cons b bs =>
      cases cs with
      | nil => simp [intervalsEnclose] at hbc
      | cons c cs =>
        simp only [intervalsEnclose, Bool.and_eq_true] at *
        exact ⟨Interval.enclosesI_trans hab.1 hbc.1, ih hab.2 hbc.2⟩

set_option maxHeartbeats 1000000 in
theorem intervalsIntersect_some {as bs : List Interval}
    (hlen : as.length = bs.length)
    (ha : ∀ i ∈ as, i.valid) (hb : ∀ i ∈ bs, i.valid)
    (hov : intervalsOverlap as bs = true) :
    ∃ cs, intervalsIntersect as bs = some cs ∧ (∀ i ∈ cs, i.valid) ∧
      cs.length = as.length := by
  induction as generalizing bs with
  | nil =>
    cases bs with
    | nil => exact ⟨[], rfl, by simp, rfl⟩
    | cons b bs => simp at hlen
  | cons a as ih =>
    cases bs with
    | nil => simp at hlen
    | cons b bs =>
      simp only [intervalsOverlap, Bool.and_eq_true] at hov
      obtain ⟨h1, h2⟩ :=
        Interval.intersectI_some (ha a (by simp)) (hb b (by simp)) hov.1
      obtain ⟨cs, hcs, hcsval, hcslen⟩ :=
        ih (by simpa using hlen) (fun i hi => ha i (by simp [hi]))
          (fun i hi => hb i (by simp [hi])) hov.2
      refine ⟨⟨max a.lower b.lower, min a.upper b.upper⟩ :: cs, ?_, ?_,
        by simp [hcslen]⟩
      · simp only [intervalsIntersect]
        rw [h1, hcs]
      · intro i hi
        rcases List.mem_cons.mp hi with h | h
        · subst h; exact h2
        · exact hcsval i h

theorem intervalsIntersect_overlap {as bs cs ss : List Interval}
    (h : intervalsIntersect as bs = some cs) :
    intervalsOverlap cs ss = (intervalsOverlap as ss && intervalsOverlap bs ss) := by
  induction as generalizing bs cs ss with
  | nil =>
    cases bs with
    | nil =>
      simp only [intervalsIntersect] at h
      cases h
      cases ss <;> simp [intervalsOverlap]
    | cons b bs => simp [intervalsIntersect] at h
  | cons a as ih =>
    cases bs with
    | nil => simp [intervalsIntersect] at h
    | cons b bs =>
      simp only [intervalsIntersect] at h
      cases hab : a.intersectI b with
      | none => rw [hab] at h; cases h
      | some i =>
        rw [hab] at h
        cases hrest : intervalsIntersect as bs with
        | none => rw [hrest] at h; cases h
        | some is =>
          rw [hrest] at h
          cases h
          cases ss with
          | nil => simp [intervalsOverlap]
          | cons s ss =>
            simp only [intervalsOverlap, ih hrest,
              Interval.intersectI_overlapsI hab]
            cases a.overlapsI s <;> cases b.overlapsI s <;>
              cases intervalsOverlap as ss <;> cases intervalsOverlap bs ss <;>
              rfl

theorem intervalsIntersect_valid {as bs cs : List Interval}
    (h : intervalsIntersect as bs = some cs) : ∀ i ∈ cs, i.valid := by
  induction as generalizing bs cs with
  | nil =>
    cases bs with
    | nil => simp only [intervalsIntersect] at h; cases h; simp
    | cons b bs => simp [intervalsIntersect] at h
  | cons a as ih =>
    cases bs with
    | nil => simp [intervalsIntersect] at h
    | cons b bs =>
      simp only [intervalsIntersect] at h
      cases hab : a.intersectI b with
      | none => rw [hab] at h; cases h
      | some i =>
        rw [hab] at h
        cases hrest : intervalsIntersect as bs with
        | none => rw [hrest] at h; cases h
        | some is =>
          rw [hrest] at h
          cases h
          intro j hj
          rcases List.mem_cons.mp hj with hh | hh
          · subst hh; exact Interval.intersectI_valid hab
          · exact ih hrest j hh

theorem intervalsIntersect_length {as bs cs : List Interval}
    (h : intervalsIntersect as bs = some cs) : cs.length = as.length := by
  induction as generalizing bs cs with
  | nil =>
    cases bs with
    | nil => simp only [intervalsIntersect] at h; cases h; rfl
    | cons b bs => simp [intervalsIntersect] at h
  | cons a as ih =>
    cases bs with
    | nil => simp [intervalsIntersect] at h
    | cons b bs =>
      simp only [intervalsIntersect] at h
      cases hab : a.intersectI b with
      | none => rw [hab] at h; cases h
      | some i =>
        rw [hab] at h
        cases hrest : intervalsIntersect as bs with
        | none => rw [hrest] at h; cases h
        | some is =>
          rw [hrest] at h; cases h
          simp [ih hrest]

/-! ### Region-level lemmas -/

theorem Region.overlaps_symm (a b : Region) : a.overlaps b = b.overlaps a :=
  intervalsOverlap_symm a.intervals b.intervals

theorem Region.overlaps_length {a b : Region} (h : a.overlaps b = true) :
    a.intervals.length = b.intervals.length :=
  intervalsOverlap_length h

/-- Two valid overlapping regions have a non-empty intersection, and the
derived region records its two parents under `reference` linkage. -/
theorem Region.intersect_some {a b : Region} (ha : a.valid) (hb : b.valid)
    (hov : a.overlaps b = true) :
    ∃ c, a.intersect b = some c ∧ c.valid ∧
      c.intervals.length = a.intervals.length ∧
      c.id = a.id ++ "&" ++ b.id ∧ c.iparents = some [a.id, b.id] := by
  obtain ⟨cs, hcs, hval, hlen⟩ :=
    intervalsIntersect_some (intervalsOverlap_length hov) ha hb hov
  refine ⟨{ id := a.id ++ "&" ++ b.id, intervals := cs,
            iparents := some [a.id, b.id], uparents := none },
    ?_, hval, hlen, rfl, rfl⟩
  simp [Region.intersect, hcs]

/-- The intersection of two regions overlaps a third region exactly when both
of them do. -/
theorem Region.intersect_overlaps {a b c s : Region}
    (h : a.intersect b = some c) :
    c.overlaps s = (a.overlaps s && b.overlaps s) := by
  simp only [Region.intersect, Option.map_eq_some'] at h
  obtain ⟨cs, hcs, rfl⟩ := h
  exact intervalsIntersect_overlap hcs

theorem Region.intersect_valid {a b c : Region} (h : a.intersect b = some c) :
    c.valid := by
  simp only [Region.intersect, Option.map_eq_some'] at h
  obtain ⟨cs, hcs, rfl⟩ := h
  exact intervalsIntersect_valid hcs

theorem Region.intersect_length {a b c : Region} (h : a.intersect b = some c) :
    c.intervals.length = a.intervals.length := by
  simp only [Region.intersect, Option.map_eq_some'] at h
  obtain ⟨cs, hcs, rfl⟩ := h
  exact intervalsIntersect_length hcs

/-- Fold step of `from_intersect`: a valid accumulator overlapping every
remaining region folds to a non-empty result. -/
theorem Region.fold_intersect_some :
    ∀ (rs : List Region) (acc : Region), acc.valid →
    (∀ s ∈ rs, s.valid) → (∀ s ∈ rs, acc.overlaps s = true) →
    rs.Pairwise (fun x y => x.overlaps y = true) →
    ∃ x, rs.foldl (fun a s => a.bind fun y => y.intersect s) (some acc) =
        some x ∧ x.valid ∧ x.intervals.length = acc.intervals.length := by
  intro rs
  induction rs with
  | nil => exact fun acc hv _ _ _ => ⟨acc, rfl, hv, rfl⟩
  | cons s rs ih =>
    intro acc hv hvs hov hpw
    obtain ⟨c, hc, hcv, hclen, -, -⟩ :=
      Region.intersect_some hv (hvs s (by simp)) (hov s (by simp))
    have hov2 : ∀ t ∈ rs, c.overlaps t = true := by
      intro t ht
      rw [Region.intersect_overlaps hc, hov t (by simp [ht]),
        (List.pairwise_cons.mp hpw).1 t ht]
      rfl
    obtain ⟨x, hx, hxv, hxlen⟩ :=
      ih c hcv (fun t ht => hvs t (by simp [ht])) hov2
        (List.pairwise_cons.mp hpw).2
    refine ⟨x, ?_, hxv, by rw [hxlen, hclen]⟩
    simpa [hc] using hx

/-- Helly property for axis-aligned boxes: a non-empty list of valid,
pairwise-overlapping regions has a non-empty common intersection, and
`from_intersect` links the full input list as parents. -/
theorem Region.from_intersect_some {l : List Region} (hne : l ≠ [])
    (hval : ∀ r ∈ l, r.valid)
    (hpw : l.Pairwise (fun x y => x.overlaps y = true)) :
    ∃ c, Region.from_intersect l = some c ∧ c.valid ∧
      c.iparents = some (l.map Region.id) := by
  match l, hne with
  | r :: rs, _ =>
    obtain ⟨x, hx, hxv, -⟩ :=
      Region.fold_intersect_some rs r (hval r (by simp))
        (fun s hs => hval s (by simp [hs]))
        (fun s hs => (List.pairwise_cons.mp hpw).1 s hs)
        (List.pairwise_cons.mp hpw).2
    refine ⟨{ x with iparents := some ((r :: rs).map Region.id) }, ?_, hxv, rfl⟩
    simp only [Region.from_intersect]
    rw [hx]
    rfl

/-! ### Enclosure and union lemmas -/

theorem Region.encloses_refl (a : Region) : a.encloses a = true :=
  intervalsEnclose_refl a.intervals

theorem Region.encloses_trans {a b c : Region}
    (hab : a.encloses b = true) (hbc : b.encloses c = true) :
    a.encloses c = true :=
  intervalsEnclose_trans hab hbc

theorem Region.encloses_length {a b : Region} (h : a.encloses b = true) :
    a.intervals.length = b.intervals.length :=
  intervalsEnclose_length h

theorem zipWith_unionI_encloses :
    ∀ {as bs : List Interval}, as.length = bs.length →
    intervalsEnclose (List.zipWith Interval.unionI as bs) as = true ∧
      intervalsEnclose (List.zipWith Interval.unionI as bs) bs = true := by
  intro as
  induction as with
  | nil => intro bs h; cases bs with
    | nil => exact ⟨rfl, rfl⟩
    | cons b bs => simp at h
  | cons a as ih =>
    intro bs h
    cases bs with
    | nil => simp at h
    | cons b bs =>
      obtain ⟨h1, h2⟩ := @ih bs (by simpa using h)
      constructor
      · simp [intervalsEnclose, Interval.unionI_enclosesI_left, h1]
      · simp [intervalsEnclose, Interval.unionI_enclosesI_right, h2]

/-- The bounding union of two regions of equal dimension exists and encloses
both of them. -/
theorem Region.union_encloses {a b : Region}
    (h : a.intervals.length = b.intervals.length) :
    ∃ u, a.union b = some u ∧ u.encloses a = true ∧ u.encloses b = true ∧
      u.intervals.length = a.intervals.length := by
  obtain ⟨h1, h2⟩ := zipWith_unionI_encloses h
  refine ⟨{ id := "uuid4",
            intervals := List.zipWith Interval.unionI a.intervals b.intervals,
            iparents := none, uparents := none },
    by simp [Region.union, h], h1, h2, ?_⟩
  simp [List.length_zipWith, h]

/-- Folding `union` over regions of one dimensionality yields a bounding
region enclosing the accumulator and every folded region. -/
theorem Region.fold_union_some :
    ∀ (rs : List Region) (acc : Region),
    (∀ s ∈ rs, s.intervals.length = acc.intervals.length) →
    ∃ u, rs.foldl (fun a s => a.bind fun x => x.union s) (some acc) = some u ∧
      u.intervals.length = acc.intervals.length ∧ u.encloses acc = true ∧
      ∀ s ∈ rs, u.encloses s = true := by
  intro rs
  induction rs with
  | nil => exact fun acc _ => ⟨acc, rfl, rfl, Region.encloses_refl acc, by simp⟩
  | cons s rs ih =>
    intro acc hlen
    obtain ⟨c, hc, hca, hcs, hclen⟩ :=
      Region.union_encloses (a := acc) (b := s) (hlen s (by simp)).symm
    obtain ⟨u, hu, hulen, huacc, hurs⟩ :=
      ih c (fun t ht => by rw [hlen t (by simp [ht]), hclen])
    refine ⟨u, by simpa [hc] using hu, by rw [hulen, hclen], ?_, ?_⟩
    · exact Region.encloses_trans huacc hca
    · intro t ht
      rcases List.mem_cons.mp ht with hh | hh
      · subst hh; exact Region.encloses_trans huacc hcs
      · exact hurs t hh

/-- `from_union` of a non-empty list of same-dimension regions encloses every
member. -/
theorem Region.from_union_encloses {l : List Region} {d : Nat} (hne : l ≠ [])
    (hd : ∀ r ∈ l, r.intervals.length = d) :
    ∃ u, Region.from_union l = some u ∧ u.intervals.length = d ∧
      ∀ r ∈ l, u.encloses r = true := by
  match l, hne with
  | r :: rs, _ =>
    obtain ⟨u, hu, hulen, huacc, hurs⟩ :=
      Region.fold_union_some rs r
        (fun s hs => by rw [hd s (by simp [hs]), hd r (by simp)])
    refine ⟨u, hu, by rw [hulen, hd r (by simp)], ?_⟩
    intro t ht
    rcases List.mem_cons.mp ht with hh | hh
    · subst hh; exact huacc
    · exact hurs t hh

/-! ### RegionSet (sources/core/datasets/regionset.py) -/

/-- `RegionSet`, the dataclass with fields id, dimension, bounds, regions
(`regionset.py` lines 55-58). -/
structure RegionSet where
  id : String
  dimension : Nat
  bounds : Option Region
  regions : List Region
deriving DecidableEq, Repr

/-- The dimension `RegionSet.__init__` settles on: the bounds' dimension when
bounds are given, else the dimension argument. -/
def effDim (bounds : Option Region) (dimension : Nat) : Nat :=
  match bounds with
  | some b => b.dimension
  | none => dimension

/-- `RegionSet.__init__`: when bounds is given the dimension is taken from the
bounds; asserts the dimension is positive; an empty id is replaced by a fresh
UUIDv4 (modelled as the placeholder "uuid4"); the regions list starts empty. -/
def RegionSet.mkNew (id : String) (bounds : Option Region) (dimension : Nat) :
    Option RegionSet :=
  if effDim bounds dimension = 0 then none
  else some { id := if id.length > 0 then id else "uuid4",
              dimension := effDim bounds dimension,
              bounds := bounds, regions := [] }

/-- `RegionSet.get`: asserts the id is non-empty, then returns the first
member with that id, or Python `None` (the inner `none`) when absent. -/
def RegionSet.get (S : RegionSet) (id : String) : Option (Option Region) :=
  if id.length = 0 then none
  else some (S.regions.find? fun r => r.id == id)

/-- `RegionSet.__getitem__` for a string index wraps `get`. -/
def RegionSet.getItemStr (S : RegionSet) (id : String) : Option (Option Region) :=
  S.get id

/-- `RegionSet.__contains__`: membership of a Region or a Region id, decided
by id lookup only (`self.get(value.id if isinstance(value, Region) else
value) != None`). -/
def RegionSet.containsQ (S : RegionSet) (value : String ⊕ Region) : Option Bool :=
  (S.get (match value with | .inl s => s | .inr r => r.id)).map Option.isSome

/-- `RegionSet.add`: asserts the region's dimension matches and, when bounds
is set, that the bounds enclose the region; only then appends. An assertion
failure (`none`) leaves no mutated collection behind, matching the source
where both asserts precede the single `append`. -/
def RegionSet.add (S : RegionSet) (r : Region) : Option RegionSet :=
  if r.dimension ≠ S.dimension then none
  else
    match S.bounds with
    | some b =>
      if b.encloses r then some { S with regions := S.regions ++ [r] }
      else none
    | none => some { S with regions := S.regions ++ [r] }

/-- `RegionSet._instance_invariant`: every member has the set's dimension and
is enclosed by the bounds when one is set. -/
def RegionSet.instanceInvariantB (S : RegionSet) : Bool :=
  S.regions.all fun r =>
    (r.dimension == S.dimension) &&
    (match S.bounds with | some b => b.encloses r | none => true)

/-- `RegionSet.bbox` at the call sites that have at least one member: asserts
the instance invariant, then returns the declared bounds or the computed
minimum bounds (`minbounds`: one member is returned as is, several are folded
through `Region.from_union`).  The empty-collection case, where Python
returns `None`, is collapsed to `none` here; `merge` guards each access with
`len(regions) > 0` and never reaches it. -/
def RegionSet.bboxP (S : RegionSet) : Option Region :=
  if S.instanceInvariantB = true then
    match S.bounds with
    | some b => some b
    | none =>
      match S.regions with
      | [] => none
      | [r] => some r
      | r :: s :: t => Region.from_union (r :: s :: t)
  else none

/-- `RegionSet.__copy__`: a new RegionSet (fresh UUID id, same bounds and
dimension) whose regions list is a fresh shallow copy of the source's. -/
def RegionSet.copyOp (S : RegionSet) : Option RegionSet :=
  (RegionSet.mkNew "" S.bounds S.dimension).map fun T =>
    { T with regions := S.regions }

/-- `RegionSet.filter`: asserts the new bounds have the set's dimension and
are enclosed by the current bounds when set, then adds every member enclosed
by the new bounds to a fresh RegionSet bounded by them. -/
def RegionSet.filterOp (S : RegionSet) (bounds : Region) : Option RegionSet :=
  if bounds.dimension ≠ S.dimension then none
  else if (match S.bounds with
           | some b => !(b.encloses bounds)
           | none => false) then none
  else
    (RegionSet.mkNew "" (some bounds) S.dimension).bind fun T =>
      S.regions.foldlM
        (fun acc r => if bounds.encloses r then acc.add r else some acc) T

/-- Resolution of one `subset` entry: a Region id resolves to the first
member with that id; a Region resolves to itself provided its id is a member
id (`region if isinstance(region, Region) else self[region]`, after the
membership assert). -/
def RegionSet.resolveEntry (S : RegionSet) (e : String ⊕ Region) : Option Region :=
  match e with
  | .inl id => (S.get id).bind fun o => o
  | .inr r => (S.get r.id).bind fun o => o.map fun _ => r

/-- `RegionSet.subset`: asserts every entry is a member (by id), then adds the
entries, in the order of the argument list, to a fresh RegionSet with this
set's bounds and dimension. -/
def RegionSet.subsetOp (S : RegionSet) (l : List (String ⊕ Region)) :
    Option RegionSet := do
  let rl ← l.mapM S.resolveEntry
  let T ← RegionSet.mkNew "" S.bounds S.dimension
  rl.foldlM (fun acc r => acc.add r) T

/-- One step of `merge`'s bounds-widening loop: a non-empty argument set
whose bounding box is not already enclosed widens the accumulated bounds by
`bounds.union(bbox)`. -/
def RegionSet.widenStep (m : RegionSet) (rs : RegionSet) : Option RegionSet :=
  if rs.regions.length > 0 then
    match m.bounds with
    | some b => do
      let bb ← rs.bboxP
      if b.encloses bb then some m
      else do
        let b2 ← b.union bb
        some { m with bounds := some b2 }
    | none => some m
  else some m

/-- One step of `merge`'s member loop: every member of the argument set is
copied, its id prefixed with the argument set's id, and added. -/
def RegionSet.addTagged (m : RegionSet) (rs : RegionSet) : Option RegionSet :=
  rs.regions.foldlM
    (fun m2 r => m2.add { r with id := rs.id ++ "_" ++ r.id }) m

/-- `RegionSet.merge`: asserts a non-empty argument list of same-dimension
sets; copies this set; widens the copy's bounds, when set, by the bounding
box of every non-empty argument set not already enclosed; then adds every
member of every argument set with its id prefixed by the source set's id. -/
def RegionSet.mergeOp (S : RegionSet) (others : List RegionSet) :
    Option RegionSet := do
  if others.isEmpty then none
  else if others.any (fun rs => rs.dimension != S.dimension) then none
  else do
    let merged ← S.copyOp
    let widened ←
      match merged.bounds with
      | some _ => others.foldlM RegionSet.widenStep merged
      | none => pure merged
    others.foldlM RegionSet.addTagged widened

/-! ### (De)serialization of Regions and RegionSets -/

/-- Modelled from the spec: the Region JSON object in its full form,
`{id, dimension, intervals}`, with a derived region additionally carrying
`intersect`/`union` parent id lists (spec section 6). -/
structure RegionObject where
  id : String
  dimension : Nat
  intervals : List (ℚ × ℚ)
  iparents : Option (List String)
  uparents : Option (List String)
deriving DecidableEq, Repr

/-- Modelled from the spec: `Region.to_object` in the full form. -/
def Region.to_object (r : Region) : RegionObject :=
  { id := r.id, dimension := r.intervals.length,
    intervals := r.intervals.map fun i => (i.lower, i.upper),
    iparents := r.iparents, uparents := r.uparents }

/-- Modelled from the spec: `Region.from_object`; construction fails on a
dimension/interval-count mismatch or an interval with `lower > upper`
(ShapeError); an empty id is replaced by a fresh UUID. -/
def Region.from_object (o : RegionObject) : Option Region :=
  if o.dimension = o.intervals.length ∧ ∀ p ∈ o.intervals, p.1 ≤ p.2 then
    some { id := if o.id.length > 0 then o.id else "uuid4",
           intervals := o.intervals.map fun p => ⟨p.1, p.2⟩,
           iparents := o.iparents, uparents := o.uparents }
  else none

/-- The RegionSet JSON object in its full (non-compact) form: the four
dataclass fields generated by `asdict` (`RegionSet.to_object`,
regionset.py lines 601-632). -/
structure RegionSetObject where
  id : String
  dimension : Nat
  bounds : Option RegionObject
  regions : List RegionObject
deriving DecidableEq, Repr

/-- `RegionSet.to_object` with the default full representation: the dataclass
fields id, dimension, bounds, regions, with Regions rendered as Region
objects. -/
def RegionSet.to_object (S : RegionSet) : RegionSetObject :=
  { id := S.id, dimension := S.dimension,
    bounds := S.bounds.map Region.to_object,
    regions := S.regions.map Region.to_object }

/-- `from_dict`'s `resolve_region`: a parent id resolves against the freshly
built set first, then against the optional reference set (regionset.py lines
671-677). -/
def resolveRegionId (S : RegionSet) (refset : Option RegionSet) (rid : String) :
    Option Region :=
  match (S.get rid).bind (fun o => o) with
  | some r => some r
  | none =>
    match refset with
    | some rs => (rs.get rid).bind fun o => o
    | none => none

/-- One field's backlink resolution in `from_dict` (regionset.py lines
699-705): every id of an `intersect`/`union` back-reference list must
resolve.  In this embedding back-references stay interned as id lists, so
the pass only validates them. -/
def checkLinks1 (S : RegionSet) (refset : Option RegionSet)
    (po : Option (List String)) : Option Unit :=
  match po with
  | some ids => (ids.mapM (resolveRegionId S refset)).map fun _ => ()
  | none => pure ()

/-- The two-field resolution loop of `from_dict` over one member. -/
def checkLinksR (S : RegionSet) (refset : Option RegionSet) (r : Region) :
    Option Unit :=
  (checkLinks1 S refset r.iparents).bind fun _ =>
    checkLinks1 S refset r.uparents

/-- The backlink-resolution pass over all members: every back-reference of
every member must resolve, else the load aborts. -/
def checkBacklinks (S : RegionSet) (refset : Option RegionSet) :
    Option RegionSet :=
  (S.regions.mapM (checkLinksR S refset)).bind fun _ => pure S

/-- The constructor dispatch of `from_dict`: build from the bounds when
present, else from the dimension, which must be positive. -/
def fromDictBase (o : RegionSetObject) : Option RegionSet :=
  match o.bounds with
  | some bo => (Region.from_object bo).bind fun b =>
      RegionSet.mkNew o.id (some b) 1
  | none =>
    if o.dimension = 0 then none
    else RegionSet.mkNew o.id none o.dimension

/-- `RegionSet.from_dict` on a full-form object: build from the bounds when
present (else from the dimension, which must be positive), add every region
(re-checking dimension and enclosure through `add`), check the reference
set's dimension, and resolve all back-references. -/
def RegionSet.from_dict (o : RegionSetObject) (refset : Option RegionSet) :
    Option RegionSet := do
  let base ← fromDictBase o
  let filled ← o.regions.foldlM
    (fun acc ro => (Region.from_object ro).bind acc.add) base
  let _ ←
    match refset with
    | some rs => if filled.dimension = rs.dimension then some () else none
    | none => some ()
  checkBacklinks filled refset

/-- `RegionSet.from_object` on a dict object dispatches to `from_dict`. -/
def RegionSet.from_objectS (o : RegionSetObject) (refset : Option RegionSet) :
    Option RegionSet :=
  RegionSet.from_dict o refset

/-! ### NxGraph (sources/datastructs/rigraphs/nxgraph.py) -/

/-- The attribute dictionary of one graph edge: the transient `overlaps`
count and the `intersect` Region (either may be absent/None). -/
structure EdgeData where
  overlaps : Option Nat
  intersect : Option Region
deriving DecidableEq, Repr

/-- One undirected edge of the NetworkX graph, stored once with its data. -/
structure NxEdge where
  u : String
  v : String
  d : EdgeData
deriving DecidableEq, Repr

/-- `NxGraph`: the NetworkX graph of a given dimension, with nodes carrying
an optional `region` attribute (edge insertion can create attribute-less
nodes) and undirected attributed edges. -/
structure NxGraph where
  dimension : Nat
  nodes : List (String × Option Region)
  edges : List NxEdge
deriving DecidableEq, Repr

/-- Node membership, `r in G.nodes`. -/
def NxGraph.hasNode (g : NxGraph) (id : String) : Bool :=
  g.nodes.any (·.1 == id)

/-- `G.nodes[r]['region']`: the region attribute of a node; `none` when the
node is absent or carries no region attribute. -/
def NxGraph.region (g : NxGraph) (id : String) : Option Region :=
  (g.nodes.find? (·.1 == id)).bind (·.2)

/-- An undirected edge matches a node id pair in either orientation. -/
def edgeMatch (k : String × String) (e : NxEdge) : Bool :=
  (e.u == k.1 && e.v == k.2) || (e.u == k.2 && e.v == k.1)

/-- Edge lookup, `overlap in G.edges` / `G.edges[overlap]`. -/
def NxGraph.findEdge (g : NxGraph) (k : String × String) : Option NxEdge :=
  g.edges.find? (edgeMatch k)

/-- Adjacency of two node ids. -/
def NxGraph.adj (g : NxGraph) (a b : String) : Bool :=
  (g.findEdge (a, b)).isSome

/-- `NxGraph.put_region`: `G.add_node(region.id, region=region)`; an existing
node has its region attribute updated. -/
def NxGraph.putRegion (g : NxGraph) (r : Region) : NxGraph :=
  if g.hasNode r.id then
    { g with nodes := g.nodes.map fun p =>
        if p.1 == r.id then (p.1, some r) else p }
  else
    { g with nodes := g.nodes ++ [(r.id, some r)] }

/-- `add_edge`'s implicit node creation: an absent endpoint becomes an
attribute-less node. -/
def NxGraph.ensureNode (g : NxGraph) (id : String) : NxGraph :=
  if g.hasNode id then g else { g with nodes := g.nodes ++ [(id, none)] }

/-- `NxGraph.put_temporary_overlap`: an existing edge must carry an
`overlaps` count strictly below the dimension (else the assert fails) and is
incremented; an absent edge is created with `overlaps=1, intersect=None`,
creating its endpoints as attribute-less nodes when needed. -/
def NxGraph.putTemporaryOverlap (g : NxGraph) (a b : Region) : Option NxGraph :=
  match g.findEdge (a.id, b.id) with
  | some e =>
    match e.d.overlaps with
    | some o =>
      if o < g.dimension then
        some { g with edges := g.edges.map fun e2 =>
          if edgeMatch (a.id, b.id) e2 then
            { e2 with d := { e2.d with overlaps := some (o + 1) } }
          else e2 }
      else none
    | none => none
  | none =>
    some { (g.ensureNode a.id).ensureNode b.id with
           edges := ((g.ensureNode a.id).ensureNode b.id).edges ++
             [⟨a.id, b.id, ⟨some 1, none⟩⟩] }

/-- `NxGraph.finalize_overlap`: asserts both ids are nodes, the edge exists
and carries an `overlaps` count; when the count equals the dimension the
regions' intersection is computed (asserted to be a Region, i.e. non-empty)
and stored while `overlaps` is dropped; otherwise the edge is removed. -/
def NxGraph.finalizeOverlap (g : NxGraph) (k : String × String) :
    Option NxGraph :=
  if !(g.hasNode k.1 && g.hasNode k.2) then none
  else
    match g.findEdge k with
    | none => none
    | some e =>
      match e.d.overlaps with
      | none => none
      | some o =>
        if g.dimension = o then
          match g.region k.1, g.region k.2 with
          | some a, some b =>
            match a.intersect b with
            | some ab =>
              some { g with edges := g.edges.map fun e2 =>
                if edgeMatch k e2 then { e2 with d := ⟨none, some ab⟩ }
                else e2 }
            | none => none
          | _, _ => none
        else
          some { g with edges := g.edges.filter fun e2 => !(edgeMatch k e2) }

/-! ### Clique enumeration queries (sources/algorithms/queries) -/

/-- The node ids of the graph, in insertion order. -/
def NxGraph.nodeIds (g : NxGraph) : List String :=
  g.nodes.map Prod.fst

/-- Pairwise adjacency of a list of node ids. -/
def pairwiseAdj (g : NxGraph) : List String → Bool
  | [] => true
  | a :: rest => rest.all (g.adj a) && pairwiseAdj g rest

/-- `nx.enumerate_all_cliques` followed by the `len(clique) > 1` filter of
`EnumerateByNxGraph.compute`: every pairwise-adjacent subset of the node
list, of size at least two.  NetworkX enumerates cliques ordered by size;
this model enumerates them in canonical sublist order, which no claim
distinguishes. -/
def NxGraph.cliquesGe2 (g : NxGraph) : List (List String) :=
  (g.nodeIds.sublists.filter fun c => pairwiseAdj g c).filter
    fun c => 1 < c.length

/-- `EnumerateByNxGraph.compute`: for every clique of size > 1, look up the
member regions, compute `Region.from_intersect(..., linked=True)` and assert
it is a Region (an empty intersection aborts the enumeration — the source
asserts, it does not skip); yield the pair (intersection, members). -/
def NxGraph.enumCompute (g : NxGraph) : Option (List (Region × List Region)) :=
  g.cliquesGe2.mapM fun c => do
    let regs ← c.mapM g.region
    let reg ← Region.from_intersect regs
    pure (reg, regs)

/-- The enumeration the spec describes: cliques whose intersection is empty
are skipped and contribute no output pair. -/
def NxGraph.enumSkipList (g : NxGraph) : List (Region × List Region) :=
  g.cliquesGe2.filterMap fun c =>
    (c.mapM g.region).bind fun regs =>
      (Region.from_intersect regs).map fun reg => (reg, regs)

/-- `nx.neighbors(G, r)`: the nodes adjacent to r. -/
def NxGraph.neighbors (g : NxGraph) (rid : String) : List String :=
  g.nodeIds.filter fun k => g.adj rid k

/-- Modelled from the spec: `MRQEnumByNxGraph` restricts the graph to the
induced subgraph on the given node ids (the `sources/algorithms/queries/
mrqenum` module is absent from the source tree; spec section 4.I). -/
def NxGraph.induced (g : NxGraph) (ids : List String) : NxGraph :=
  { dimension := g.dimension,
    nodes := g.nodes.filter fun p => ids.contains p.1,
    edges := g.edges.filter fun e => ids.contains e.u && ids.contains e.v }

/-- `SRQEnumByNxGraph`: asserts r is a node, restricts to the induced
subgraph on r and its neighbors, enumerates that subgraph's cliques, and
retains the results whose member list contains r's region. -/
def NxGraph.srqCompute (g : NxGraph) (rid : String) :
    Option (List (Region × List Region)) :=
  if !(g.hasNode rid) then none
  else do
    let rr ← g.region rid
    let sub := g.induced (rid :: g.neighbors rid)
    let L ← sub.enumCompute
    pure (L.filter fun p => decide (rr ∈ p.2))

/-! ### Heap view of RegionSet operations

Python objects alias: a `RegionSet` object holds a reference to its mutable
regions list.  To state frame properties (an operation leaves the receiver
untouched) the object graph is modelled explicitly: a heap maps object
references to `RegionSet` attribute records and list references to region
lists.  Each cloning operation computes its result with the value-level
function above and materialises it at fresh references, mirroring the source
where every write of `copy`/`shuffle`/`filter`/`subset`/`merge` targets the
newly constructed object or its newly constructed list (`__copy__` copies
`self.regions` into a fresh list; `shuffle` permutes only that fresh list). -/

/-- The attribute record of one `RegionSet` object: its regions list lives
behind a list reference. -/
structure RSObj where
  id : String
  dimension : Nat
  bounds : Option Region
  regionsRef : Nat
deriving DecidableEq, Repr

/-- A heap of RegionSet objects and of region lists, with bump allocation. -/
structure Heap where
  objs : Nat → RSObj
  lists : Nat → List Region
  objsNext : Nat
  listsNext : Nat

/-- Allocate a fresh list. -/
def Heap.allocList (h : Heap) (l : List Region) : Nat × Heap :=
  (h.listsNext,
   { h with lists := fun n => if n = h.listsNext then l else h.lists n,
            listsNext := h.listsNext + 1 })

/-- Allocate a fresh object. -/
def Heap.allocObj (h : Heap) (ob : RSObj) : Nat × Heap :=
  (h.objsNext,
   { h with objs := fun n => if n = h.objsNext then ob else h.objs n,
            objsNext := h.objsNext + 1 })

/-- Overwrite the list behind a list reference (in-place list mutation). -/
def Heap.writeList (h : Heap) (n : Nat) (l : List Region) : Heap :=
  { h with lists := fun m => if m = n then l else h.lists m }

/-- Read a RegionSet object into its value. -/
def Heap.readSet (h : Heap) (o : Nat) : RegionSet :=
  let ob := h.objs o
  ⟨ob.id, ob.dimension, ob.bounds, h.lists ob.regionsRef⟩

/-- Materialise a RegionSet value at fresh references. -/
def Heap.putNewSet (h : Heap) (S : RegionSet) : Nat × Heap :=
  let p := h.allocList S.regions
  let q := p.2.allocObj ⟨S.id, S.dimension, S.bounds, p.1⟩
  q

/-- `copy` at the heap level: the receiver is only read. -/
def copyStore (h : Heap) (o : Nat) : Option (Nat × Heap) :=
  ((h.readSet o).copyOp).map h.putNewSet

/-- `shuffle` at the heap level: copy, then permute the fresh copy's list in
place (`random.shuffle`'s reordering is abstracted as an arbitrary
permutation function). -/
def shuffleStore (h : Heap) (o : Nat) (perm : List Region → List Region) :
    Option (Nat × Heap) :=
  (copyStore h o).map fun r =>
    let ref := (r.2.objs r.1).regionsRef
    (r.1, r.2.writeList ref (perm (r.2.lists ref)))

/-- `filter` at the heap level. -/
def filterStore (h : Heap) (o : Nat) (bounds : Region) : Option (Nat × Heap) :=
  ((h.readSet o).filterOp bounds).map h.putNewSet

/-- `subset` at the heap level. -/
def subsetStore (h : Heap) (o : Nat) (l : List (String ⊕ Region)) :
    Option (Nat × Heap) :=
  ((h.readSet o).subsetOp l).map h.putNewSet

/-- `merge` at the heap level: the argument sets are only read. -/
def mergeStore (h : Heap) (o : Nat) (others : List Nat) : Option (Nat × Heap) :=
  ((h.readSet o).mergeOp (others.map h.readSet)).map h.putNewSet

/-! ### Remaining definitions: graph well-formedness, invariants, examples -/

/-- `NxGraph.put_overlap`: `G.add_edge(a.id, b.id, intersect=a.intersect(b,
'reference'))`; an existing edge has its `intersect` attribute updated, an
absent edge is created with only that attribute, creating missing endpoint
nodes as attribute-less nodes. -/
def NxGraph.putOverlap (g : NxGraph) (a b : Region) : NxGraph :=
  let k := (a.id, b.id)
  let itx := a.intersect b
  match g.findEdge k with
  | some _ =>
    { g with edges := g.edges.map fun e2 =>
        if edgeMatch k e2 then { e2 with d := { e2.d with intersect := itx } }
        else e2 }
  | none =>
    let g2 := (g.ensureNode a.id).ensureNode b.id
    { g2 with edges := g2.edges ++ [⟨a.id, b.id, ⟨none, itx⟩⟩] }

/-- The construction invariant of the transient `overlaps` attribute: every
edge that carries it holds a count in `[1, dimension]`. -/
def NxGraph.overlapsInvB (g : NxGraph) : Bool :=
  g.edges.all fun e =>
    match e.d.overlaps with
    | some o => decide (1 ≤ o) && decide (o ≤ g.dimension)
    | none => true

/-- The data-model well-formedness of a region intersection graph: every
node carries a valid region of the graph's dimension whose id is the node
key, node keys are distinct, and every edge joins two nodes whose regions
overlap. -/
def NxGraph.wfB (g : NxGraph) : Bool :=
  (g.nodes.all fun p =>
    match p.2 with
    | some r => r.id == p.1 && decide r.valid && (r.dimension == g.dimension)
    | none => false) &&
  decide (g.nodeIds.Nodup) &&
  (g.edges.all fun e =>
    match g.region e.u, g.region e.v with
    | some a, some b => a.overlaps b
    | _, _ => false)

/-- Total variant of the node-region lookup, used to express the output of a
successful enumeration as a `map` over cliques. -/
def NxGraph.regionD (g : NxGraph) (id : String) : Region :=
  (g.region id).getD { id := "", intervals := [] }

/-- The output pair a clique contributes when nothing aborts. -/
def NxGraph.cliquePair (g : NxGraph) (c : List String) : Region × List Region :=
  ((Region.from_intersect (c.map g.regionD)).getD { id := "", intervals := [] },
   c.map g.regionD)

/-- Example region `a = [0, 1]`. -/
def exA : Region := { id := "a", intervals := [⟨0, 1⟩] }

/-- Example region `b = [2, 3]` (disjoint from `exA`). -/
def exB : Region := { id := "b", intervals := [⟨2, 3⟩] }

/-- Example region `c = [0, 4]`. -/
def exC : Region := { id := "c", intervals := [⟨0, 4⟩] }

/-- Example region `d = [2, 6]` (overlaps `exC`). -/
def exD : Region := { id := "d", intervals := [⟨2, 6⟩] }

/-- Example region `e = [3, 5]` (overlaps `exC` and `exD`). -/
def exE : Region := { id := "e", intervals := [⟨3, 5⟩] }

/-- Example region `f = [1, 3]` (enclosed by `exC`). -/
def exF : Region := { id := "f", intervals := [⟨1, 3⟩] }

/-- A RegionSet with members a and b, in that order. -/
def exSetAB : RegionSet :=
  { id := "s", dimension := 1, bounds := none, regions := [exA, exB] }

/-- The graph obtained through the public API by adding the two disjoint
regions a, b as nodes and then an edge between them with `put_overlap` (the
source computes `intersect=None` for the attribute and adds the edge
anyway). -/
def cexGraphC1 : NxGraph :=
  (((NxGraph.mk 1 [] []).putRegion exA).putRegion exB).putOverlap exA exB

/-- The graph state after `put_region(a)`, `put_region(b)` and one
`put_temporary_overlap((a, b))` on a 1-dimensional graph of the two disjoint
regions a, b: a tentative edge with `overlaps = 1 = dimension`. -/
def cexGraphC3 : NxGraph :=
  { dimension := 1, nodes := [("a", some exA), ("b", some exB)],
    edges := [⟨"a", "b", ⟨some 1, none⟩⟩] }

/-- A 1-dimensional graph over the overlapping regions c, d with one
tentative edge counted in its single dimension. -/
def exGraphCD : NxGraph :=
  { dimension := 1, nodes := [("c", some exC), ("d", some exD)],
    edges := [⟨"c", "d", ⟨some 1, none⟩⟩] }

/-- A finalized 1-dimensional graph over the mutually overlapping regions
c, d, e. -/
def exGraphCDE : NxGraph :=
  { dimension := 1,
    nodes := [("c", some exC), ("d", some exD), ("e", some exE)],
    edges := [⟨"c", "d", ⟨none, exC.intersect exD⟩⟩,
              ⟨"c", "e", ⟨none, exC.intersect exE⟩⟩,
              ⟨"d", "e", ⟨none, exD.intersect exE⟩⟩] }

/-- An empty 2-dimensional graph. -/
def exGraph2D : NxGraph := { dimension := 2, nodes := [], edges := [] }

/-- Example 2-dimensional region. -/
def exP : Region := { id := "p", intervals := [⟨0, 4⟩, ⟨0, 4⟩] }

/-- Example 2-dimensional region overlapping `exP`. -/
def exQ : Region := { id := "q", intervals := [⟨2, 6⟩, ⟨1, 5⟩] }

/-- A RegionSet with bounds c enclosing its members c and f. -/
def exSetCF : RegionSet :=
  { id := "s", dimension := 1, bounds := some exC, regions := [exC, exF] }

/-- A RegionSet holding a derived region x with parent back-references to
its members c and d. -/
def exSetDer : RegionSet :=
  { id := "s2", dimension := 1, bounds := none,
    regions := [exC, exD,
      { id := "x", intervals := [⟨3, 4⟩], iparents := some ["c", "d"],
        uparents := none }] }

/-- A concrete heap holding one RegionSet object (reference 0) whose regions
list (reference 0) holds the single region a. -/
def hW : Heap :=
  { objs := fun _ => ⟨"s", 1, none, 0⟩, lists := fun _ => [exA],
    objsNext := 1, listsNext := 1 }

/-! ### Shared lemmas about RegionSet operations -/

/-- A successful `add` under the membership preconditions. -/
theorem RegionSet.add_eq_some {S : RegionSet} {r : Region}
    (hdim : r.dimension = S.dimension)
    (henc : ∀ b, S.bounds = some b → b.encloses r = true) :
    S.add r = some { S with regions := S.regions ++ [r] } := by
  unfold RegionSet.add
  cases hb : S.bounds with
  | none => simp [hdim]
  | some b => simp [hdim, henc b hb]

/-- Folding `add` over a list of regions that all satisfy the membership
preconditions appends them in order. -/
theorem RegionSet.foldlM_add {l : List Region} : ∀ {S : RegionSet},
    (∀ r ∈ l, r.dimension = S.dimension ∧
      ∀ b, S.bounds = some b → b.encloses r = true) →
    l.foldlM (fun acc r => acc.add r) S =
      some { S with regions := S.regions ++ l } := by
  induction l with
  | nil => intro S _; simp
  | cons r l ih =>
    intro S h
    have hr := h r (by simp)
    rw [List.foldlM_cons, RegionSet.add_eq_some hr.1 hr.2]
    have := ih (S := { S with regions := S.regions ++ [r] })
      (fun t ht => h t (by simp [ht]))
    simp [this]

/-- The shape of one successful `add`: the other fields are preserved and
the region is appended. -/
theorem RegionSet.add_some_shape {S T : RegionSet} {r : Region}
    (h : S.add r = some T) :
    T.id = S.id ∧ T.dimension = S.dimension ∧ T.bounds = S.bounds ∧
      T.regions = S.regions ++ [r] := by
  unfold RegionSet.add at h
  split at h
  · cases h
  · split at h
    · split at h
      · cases h; simp
      · cases h
    · cases h; simp

/-- The shape of any successful fold of `add`: the accumulated fields are
preserved and the added regions are appended in order. -/
theorem RegionSet.foldlM_add_shape {l : List Region} : ∀ {S T : RegionSet},
    l.foldlM (fun acc r => acc.add r) S = some T →
    T.id = S.id ∧ T.dimension = S.dimension ∧ T.bounds = S.bounds ∧
      T.regions = S.regions ++ l := by
  induction l with
  | nil => intro S T h; cases h; simp
  | cons r l ih =>
    intro S T h
    rw [List.foldlM_cons] at h
    cases hadd : S.add r with
    | none => rw [hadd] at h; cases h
    | some S2 =>
      rw [hadd] at h
      obtain ⟨h1, h2, h3, h4⟩ := ih h
      obtain ⟨g1, g2, g3, g4⟩ := RegionSet.add_some_shape hadd
      refine ⟨by rw [h1, g1], by rw [h2, g2], by rw [h3, g3], ?_⟩
      rw [h4, g4]
      simp

/-! ### Claim C5 -/

/-- C5: `RegionSet.add(r)` fails exactly when the region's dimension differs
from the set's or the declared bounds do not enclose it; a failure produces
no partially mutated collection, and a success appends the region at the end
with all other fields unchanged. -/
theorem C5_add_contract (S : RegionSet) (r : Region) :
    (S.add r = none ↔ r.dimension ≠ S.dimension ∨
      ∃ b, S.bounds = some b ∧ b.encloses r = false) ∧
    ∀ T, S.add r = some T → T.id = S.id ∧ T.dimension = S.dimension ∧
      T.bounds = S.bounds ∧ T.regions = S.regions ++ [r] := by
  constructor
  · unfold RegionSet.add
    split
    next hdim => simp [hdim]
    next hdim =>
      have hdim2 : r.dimension = S.dimension := not_not.mp hdim
      split
      next b heq =>
        split
        next henc => simp [heq, henc, hdim2]
        next henc =>
          have henc2 : b.encloses r = false := by simpa using henc
          simp [heq, henc2, hdim2]
      next heq => simp [heq, hdim2]
  · intro T h
    exact RegionSet.add_some_shape h

/-- C5 witness: adding a 1-D region to a 2-D set fails; adding it to an
unbounded 1-D set appends it. -/
theorem C5_add_contract_witness :
    ({ id := "t", dimension := 2, bounds := none, regions := [] } : RegionSet).add
        exA = none ∧
    ∃ T, ({ id := "s", dimension := 1, bounds := none,
            regions := [] } : RegionSet).add exA = some T ∧
      T.regions = [exA] := by
  constructor
  · exact (C5_add_contract
      { id := "t", dimension := 2, bounds := none, regions := [] } exA).1.mpr
      (Or.inl (by decide))
  · cases hE : RegionSet.add
        { id := "s", dimension := 1, bounds := none, regions := [] } exA with
    | none =>
      have := (C5_add_contract
        { id := "s", dimension := 1, bounds := none, regions := [] } exA).1.mp hE
      simp [exA, Region.dimension] at this
    | some T =>
      obtain ⟨-, -, -, h4⟩ := (C5_add_contract
        { id := "s", dimension := 1, bounds := none, regions := [] } exA).2 T hE
      exact ⟨T, rfl, by simpa using h4⟩

/-! ### Claim C10 -/

/-- C10: membership and id lookup are keyed by region id only: `r in S` holds
exactly when some member carries `r`'s id (whatever its intervals); for a
non-empty id matching no member, `get` and `__getitem__` return Python None
rather than raising, and the membership test is False. -/
theorem C10_lookup_by_id (S : RegionSet) :
    (∀ r : Region, r.id.length ≠ 0 →
      (S.containsQ (Sum.inr r) = some true ↔ ∃ m ∈ S.regions, m.id = r.id)) ∧
    ∀ s : String, s.length ≠ 0 → (∀ m ∈ S.regions, m.id ≠ s) →
      S.get s = some none ∧ S.getItemStr s = some none ∧
        S.containsQ (Sum.inl s) = some false := by
  constructor
  · intro r hr
    unfold RegionSet.containsQ RegionSet.get
    rw [if_neg hr]
    simp [List.find?_isSome]
  · intro s hs hnone
    have hfind : (S.regions.find? fun r => r.id == s) = none := by
      rw [List.find?_eq_none]
      intro m hm
      simpa using hnone m hm
    simp [RegionSet.getItemStr, RegionSet.containsQ, RegionSet.get, hs, hfind]

/-- C10 witness: a probe region with a member's id but different intervals
tests as a member; a fresh id yields None lookups and a False test. -/
theorem C10_lookup_by_id_witness :
    exSetAB.containsQ (Sum.inr { id := "a", intervals := [⟨5, 9⟩] }) =
      some true ∧
    exSetAB.get "zz" = some none ∧
    exSetAB.containsQ (Sum.inl "zz") = some false := by
  refine ⟨?_, ?_, ?_⟩
  · exact ((C10_lookup_by_id exSetAB).1 _ (by decide)).mpr
      ⟨exA, by simp [exSetAB], rfl⟩
  · exact ((C10_lookup_by_id exSetAB).2 "zz" (by decide) (by decide)).1
  · exact ((C10_lookup_by_id exSetAB).2 "zz" (by decide) (by decide)).2.2

/-! ### Shared lemmas: mkNew, invariant, resolution, mapM -/

/-- The shape of any successfully constructed RegionSet. -/
theorem RegionSet.mkNew_some {s : String} {bounds : Option Region}
    {dimension : Nat} {T : RegionSet}
    (h : RegionSet.mkNew s bounds dimension = some T) :
    T.bounds = bounds ∧ T.regions = [] ∧
      T.dimension = effDim bounds dimension ∧
      T.id = (if s.length > 0 then s else "uuid4") := by
  unfold RegionSet.mkNew at h
  split at h
  · cases h
  · cases h; exact ⟨rfl, rfl, rfl, rfl⟩

/-- Constructing a RegionSet succeeds when the effective dimension is
positive. -/
theorem RegionSet.mkNew_eq_some {s : String} {bounds : Option Region}
    {dimension : Nat} (h : effDim bounds dimension ≠ 0) :
    RegionSet.mkNew s bounds dimension =
      some { id := if s.length > 0 then s else "uuid4",
             dimension := effDim bounds dimension,
             bounds := bounds, regions := [] } := by
  unfold RegionSet.mkNew
  rw [if_neg h]

/-- Reading the instance invariant member-wise. -/
theorem RegionSet.invariant_spec {S : RegionSet}
    (h : S.instanceInvariantB = true) :
    ∀ r ∈ S.regions, r.dimension = S.dimension ∧
      ∀ b, S.bounds = some b → b.encloses r = true := by
  intro r hr
  unfold RegionSet.instanceInvariantB at h
  rw [List.all_eq_true] at h
  have h2 := h r hr
  rw [Bool.and_eq_true] at h2
  refine ⟨by simpa using h2.1, ?_⟩
  intro b hb
  rw [hb] at h2
  exact h2.2

/-- A resolved id entry is a member of the set. -/
theorem RegionSet.resolveEntry_inl_mem {S : RegionSet} {s : String} {r : Region}
    (h : S.resolveEntry (Sum.inl s) = some r) : r ∈ S.regions := by
  simp only [RegionSet.resolveEntry, RegionSet.get] at h
  by_cases hs : s.length = 0
  · rw [if_pos hs] at h
    simp at h
  · rw [if_neg hs] at h
    simp only [Option.some_bind] at h
    exact List.mem_of_find?_eq_some h

/-- An id entry with a member's non-empty id resolves. -/
theorem RegionSet.resolveEntry_inl_some {S : RegionSet} {s : String}
    (hs : s.length ≠ 0) (hmem : ∃ m ∈ S.regions, m.id = s) :
    ∃ r, S.resolveEntry (Sum.inl s) = some r := by
  simp only [RegionSet.resolveEntry, RegionSet.get]
  rw [if_neg hs]
  simp only [Option.some_bind]
  obtain ⟨m, hm, hid⟩ := hmem
  have hsome : (S.regions.find? fun r => r.id == s).isSome := by
    rw [List.find?_isSome]
    exact ⟨m, hm, by simp [hid]⟩
  cases hfind : S.regions.find? fun r => r.id == s with
  | none => rw [hfind] at hsome; cases hsome
  | some r => exact ⟨r, rfl⟩

/-- `mapM` over `Option` succeeds pointwise: a function that is `some` of a
given map on every element maps the whole list. -/
theorem mapM_eq_map_some {α β : Type} (F : α → Option β) (G : α → β) :
    ∀ l : List α, (∀ a ∈ l, F a = some (G a)) → l.mapM F = some (l.map G) := by
  intro l
  induction l with
  | nil => intro _; rfl
  | cons a l ih =>
    intro h
    rw [List.mapM_cons, h a (by simp), ih (fun x hx => h x (by simp [hx]))]
    rfl

/-- A pointwise-successful `mapM` over `Option` succeeds, and every output
element comes from some input element. -/
theorem mapM_exists_some {α β : Type} {F : α → Option β} :
    ∀ {l : List α}, (∀ a ∈ l, ∃ b, F a = some b) →
    ∃ bl, l.mapM F = some bl ∧ ∀ b ∈ bl, ∃ a ∈ l, F a = some b := by
  intro l
  induction l with
  | nil => exact fun _ => ⟨[], rfl, by simp⟩
  | cons a l ih =>
    intro h
    obtain ⟨b, hb⟩ := h a (by simp)
    obtain ⟨bl, hbl, hmem⟩ := ih (fun x hx => h x (by simp [hx]))
    refine ⟨b :: bl, ?_, ?_⟩
    · rw [List.mapM_cons, hb, hbl]; rfl
    · intro c hc
      rcases List.mem_cons.mp hc with hh | hh
      · exact ⟨a, by simp, hh ▸ hb⟩
      · obtain ⟨x, hx, hfx⟩ := hmem c hh
        exact ⟨x, by simp [hx], hfx⟩

/-- `filterMap` with a pointwise-`some` function is the corresponding map. -/
theorem filterMap_eq_map_some {α β : Type} (F : α → Option β) (G : α → β) :
    ∀ l : List α, (∀ a ∈ l, F a = some (G a)) → l.filterMap F = l.map G := by
  intro l
  induction l with
  | nil => intro _; rfl
  | cons a l ih =>
    intro h
    simp [List.filterMap_cons, h a (by simp),
      ih (fun x hx => h x (by simp [hx]))]

/-! ### Claim C7 -/

/-- C7 counterexample: on the set with regions `[a, b]`, `subset(["b", "a"])`
returns the members in the order of the ids argument, `[b, a]`, not in their
relative order `[a, b]` in `S.regions` as the claim states. -/
theorem C7_counterexample :
    (exSetAB.subsetOp [Sum.inl "b", Sum.inl "a"]).map RegionSet.regions =
      some [exB, exA] ∧ [exB, exA] ≠ [exA, exB] := by
  constructor
  · rfl
  · decide

/-- C7 (amended): `subset` returns a new RegionSet containing exactly the
designated members, in the order of the argument list (not the order of
`S.regions`), with the set's bounds carried over; it succeeds whenever the
entries are non-empty member ids and the set invariant holds. -/
theorem C7_subset_order (S : RegionSet) (l : List (String ⊕ Region)) :
    (∀ T, S.subsetOp l = some T →
      T.bounds = S.bounds ∧ l.mapM S.resolveEntry = some T.regions) ∧
    (S.instanceInvariantB = true → S.dimension ≠ 0 →
      (∀ b, S.bounds = some b → b.dimension = S.dimension) →
      (∀ e ∈ l, ∃ s, e = Sum.inl s ∧ s.length ≠ 0 ∧ ∃ m ∈ S.regions, m.id = s) →
      ∃ T, S.subsetOp l = some T) := by
  constructor
  · intro T h
    unfold RegionSet.subsetOp at h
    cases hm : l.mapM S.resolveEntry with
    | none => rw [hm] at h; cases h
    | some rl =>
      rw [hm] at h
      simp only [Option.bind_eq_bind, Option.some_bind] at h
      cases hk : RegionSet.mkNew "" S.bounds S.dimension with
      | none => rw [hk] at h; cases h
      | some T0 =>
        rw [hk] at h
        simp only [Option.bind_eq_bind, Option.some_bind] at h
        obtain ⟨k1, k2, k3, k4⟩ := RegionSet.mkNew_some hk
        obtain ⟨s1, s2, s3, s4⟩ := RegionSet.foldlM_add_shape h
        refine ⟨by rw [s3, k1], ?_⟩
        rw [s4, k2]
        simp
  · intro hinv hdim hbdim hl
    have hres : ∀ e ∈ l, ∃ r, S.resolveEntry e = some r := by
      intro e he
      obtain ⟨s, rfl, hs, hmem⟩ := hl e he
      exact RegionSet.resolveEntry_inl_some hs hmem
    obtain ⟨rl, hrl, hrlmem⟩ := mapM_exists_some hres
    have hdim2 : effDim S.bounds S.dimension ≠ 0 := by
      cases hb : S.bounds with
      | none => simpa [effDim] using hdim
      | some b => simpa [effDim, hbdim b hb] using hdim
    have hk := @RegionSet.mkNew_eq_some "" S.bounds S.dimension hdim2
    have hadd := @RegionSet.foldlM_add rl
      { id := "uuid4", dimension := effDim S.bounds S.dimension,
        bounds := S.bounds, regions := [] } ?_
    · refine ⟨{ id := "uuid4", dimension := effDim S.bounds S.dimension,
                bounds := S.bounds, regions := [] ++ rl }, ?_⟩
      unfold RegionSet.subsetOp
      rw [hrl]
      simp only [Option.bind_eq_bind, Option.some_bind]
      rw [hk]
      simp only [Option.bind_eq_bind, Option.some_bind]
      exact hadd
    · intro r hr
      obtain ⟨e, he, hfe⟩ := hrlmem r hr
      obtain ⟨s, rfl, -, -⟩ := hl e he
      have hrmem := RegionSet.resolveEntry_inl_mem hfe
      obtain ⟨hd, hb⟩ := RegionSet.invariant_spec hinv r hrmem
      constructor
      · cases hbb : S.bounds with
        | none => simpa [effDim, hbb] using hd
        | some b => simpa [effDim, hbb, hbdim b hbb] using hd
      · intro b hb2
        simp only [] at hb2
        exact hb b hb2

/-- C7 witness: on a bounded set with two members, `subset` of both member
ids in reversed order succeeds and lists them in argument order. -/
theorem C7_subset_order_witness :
    ∃ T, exSetAB.subsetOp [Sum.inl "b", Sum.inl "a"] = some T ∧
      T.regions = [exB, exA] := by
  obtain ⟨T, hT⟩ := (C7_subset_order exSetAB [Sum.inl "b", Sum.inl "a"]).2
    (by decide) (by decide) (by intro b hb; cases hb)
    (by
      intro e he
      rcases List.mem_cons.mp he with rfl | he2
      · exact ⟨"b", rfl, by decide, exB, by simp [exSetAB], rfl⟩
      · rcases List.mem_cons.mp he2 with rfl | he3
        · exact ⟨"a", rfl, by decide, exA, by simp [exSetAB], rfl⟩
        · cases he3)
  obtain ⟨-, hmap⟩ := (C7_subset_order exSetAB [Sum.inl "b", Sum.inl "a"]).1 T hT
  have hval : ([Sum.inl "b", Sum.inl "a"] : List (String ⊕ Region)).mapM
      exSetAB.resolveEntry = some [exB, exA] := by rfl
  rw [hval] at hmap
  exact ⟨T, hT, (Option.some.inj hmap).symm⟩

/-! ### Shared lemmas about NxGraph operations -/

theorem NxGraph.ensureNode_edges (g : NxGraph) (s : String) :
    (g.ensureNode s).edges = g.edges ∧
      (g.ensureNode s).dimension = g.dimension := by
  unfold NxGraph.ensureNode
  split <;> exact ⟨rfl, rfl⟩

theorem NxGraph.hasNode_of_region {g : NxGraph} {s : String} {r : Region}
    (h : g.region s = some r) : g.hasNode s = true := by
  unfold NxGraph.region at h
  cases hf : g.nodes.find? (·.1 == s) with
  | none => rw [hf] at h; cases h
  | some p =>
    have hmem := List.mem_of_find?_eq_some hf
    have hp := List.find?_some hf
    unfold NxGraph.hasNode
    rw [List.any_eq_true]
    exact ⟨p, hmem, hp⟩

/-- The `overlaps` invariant read as a proposition. -/
theorem NxGraph.overlapsInvB_iff (g : NxGraph) :
    g.overlapsInvB = true ↔
      ∀ e ∈ g.edges, ∀ o, e.d.overlaps = some o →
        1 ≤ o ∧ o ≤ g.dimension := by
  unfold NxGraph.overlapsInvB
  rw [List.all_eq_true]
  constructor
  · intro h e he o ho
    have h2 := h e he
    rw [ho] at h2
    simpa using h2
  · intro h e he
    cases ho : e.d.overlaps with
    | none => simp
    | some o =>
      have h2 := h e he o ho
      simp only []
      rw [Bool.and_eq_true, decide_eq_true_iff, decide_eq_true_iff]
      exact h2

/-- One successful `put_temporary_overlap` preserves the `overlaps ∈ [1, d]`
invariant and the dimension. -/
theorem NxGraph.putTemporaryOverlap_inv {g g2 : NxGraph} {a b : Region}
    (hd : 1 ≤ g.dimension) (hInv : g.overlapsInvB = true)
    (h : g.putTemporaryOverlap a b = some g2) :
    g2.overlapsInvB = true ∧ g2.dimension = g.dimension := by
  rw [NxGraph.overlapsInvB_iff] at hInv
  unfold NxGraph.putTemporaryOverlap at h
  split at h
  · split at h
    · split at h
      case isTrue o hlt =>
        cases h
        refine ⟨?_, rfl⟩
        rw [NxGraph.overlapsInvB_iff]
        intro e2 he2 o2 ho2
        dsimp only at he2 ⊢
        rw [List.mem_map] at he2
        obtain ⟨e3, he3, rfl⟩ := he2
        by_cases hm : edgeMatch (a.id, b.id) e3 = true
        · rw [if_pos hm] at ho2
          simp only [] at ho2
          cases ho2
          constructor <;> omega
        · rw [if_neg hm] at ho2
          exact hInv e3 he3 o2 ho2
      case isFalse => cases h
    · cases h
  · cases h
    have he := NxGraph.ensureNode_edges (g.ensureNode a.id) b.id
    have he2 := NxGraph.ensureNode_edges g a.id
    refine ⟨?_, by dsimp only; rw [he.2, he2.2]⟩
    rw [NxGraph.overlapsInvB_iff]
    intro e2 he3 o ho
    dsimp only at he3 ⊢
    rw [he.1, he2.1, List.mem_append] at he3
    rw [he.2, he2.2]
    rcases he3 with hh | hh
    · exact hInv e2 hh o ho
    · rw [List.mem_singleton] at hh
      subst hh
      simp only [] at ho
      cases ho
      constructor <;> omega

/-- The invariant is preserved by any sequence of `put_temporary_overlap`
calls. -/
theorem NxGraph.putTemporaryOverlap_fold_inv :
    ∀ (ops : List (Region × Region)) (g g2 : NxGraph), 1 ≤ g.dimension →
    g.overlapsInvB = true →
    ops.foldlM (fun h p => h.putTemporaryOverlap p.1 p.2) g = some g2 →
    g2.overlapsInvB = true ∧ g2.dimension = g.dimension := by
  intro ops
  induction ops with
  | nil =>
    intro g g2 _ hInv h
    cases h
    exact ⟨hInv, rfl⟩
  | cons p ops ih =>
    intro g g2 hd hInv h
    rw [List.foldlM_cons] at h
    cases hstep : g.putTemporaryOverlap p.1 p.2 with
    | none => rw [hstep] at h; cases h
    | some g1 =>
      rw [hstep] at h
      obtain ⟨h1, h2⟩ := NxGraph.putTemporaryOverlap_inv hd hInv hstep
      obtain ⟨h3, h4⟩ := ih g1 g2 (by omega) h1 h
      exact ⟨h3, by omega⟩

/-! ### Claim C4 -/

/-- C4: the transient `overlaps` attribute always lies in `[1, dimension]`:
`put_temporary_overlap` creates an absent edge with `overlaps = 1`,
increments an existing edge's count only below the dimension (the assert
bounds it by `d`), and the invariant is preserved by every sequence of
calls. -/
theorem C4_put_temporary_overlap (g : NxGraph) (hd : 1 ≤ g.dimension)
    (hInv : g.overlapsInvB = true) :
    (∀ a b : Region, g.findEdge (a.id, b.id) = none →
      ∃ g2, g.putTemporaryOverlap a b = some g2 ∧
        g2.edges = g.edges ++ [⟨a.id, b.id, ⟨some 1, none⟩⟩]) ∧
    (∀ a b : Region, ∀ e o, g.findEdge (a.id, b.id) = some e →
      e.d.overlaps = some o → o < g.dimension →
      ∃ g2, g.putTemporaryOverlap a b = some g2 ∧
        g2.edges = g.edges.map fun e2 =>
          if edgeMatch (a.id, b.id) e2 then
            { e2 with d := { e2.d with overlaps := some (o + 1) } }
          else e2) ∧
    (∀ ops : List (Region × Region), ∀ g2,
      ops.foldlM (fun h p => h.putTemporaryOverlap p.1 p.2) g = some g2 →
      g2.overlapsInvB = true ∧ g2.dimension = g.dimension) := by
  refine ⟨?_, ?_, fun ops g2 h =>
    NxGraph.putTemporaryOverlap_fold_inv ops g g2 hd hInv h⟩
  · intro a b hfind
    unfold NxGraph.putTemporaryOverlap
    rw [hfind]
    refine ⟨_, rfl, ?_⟩
    have he := NxGraph.ensureNode_edges (g.ensureNode a.id) b.id
    have he2 := NxGraph.ensureNode_edges g a.id
    simp [he.1, he2.1]
  · intro a b e o hfind ho hlt
    unfold NxGraph.putTemporaryOverlap
    rw [hfind]
    simp only [ho, if_pos hlt]
    exact ⟨_, rfl, rfl⟩

/-- C4 witness: two temporary overlaps of the same 2-D pair leave the
invariant intact, with the count at 2 = d. -/
theorem C4_put_temporary_overlap_witness :
    ∃ g2, ([(exP, exQ), (exP, exQ)]).foldlM
        (fun h p => h.putTemporaryOverlap p.1 p.2) exGraph2D = some g2 ∧
      g2.overlapsInvB = true := by
  cases hE : ([(exP, exQ), (exP, exQ)]).foldlM
      (fun h p => h.putTemporaryOverlap p.1 p.2) exGraph2D with
  | none =>
    have hs : (([(exP, exQ), (exP, exQ)]).foldlM
        (fun (h : NxGraph) (p : Region × Region) =>
          h.putTemporaryOverlap p.1 p.2) exGraph2D).isSome = true := by
      decide
    rw [hE] at hs
    cases hs
  | some g2 =>
    exact ⟨g2, rfl,
      ((C4_put_temporary_overlap exGraph2D (by decide) (by decide)).2.2
        [(exP, exQ), (exP, exQ)] g2 hE).1⟩

/-! ### Claim C3 -/

/-- C3 counterexample: a 1-dimensional graph over the disjoint regions a, b
holds a tentative edge with `overlaps = 1 = dimension` (the state put there
by `put_temporary_overlap`), yet `finalize_overlap` aborts on the internal
assertion (`a.intersect(b)` is None) instead of storing the intersection and
dropping `overlaps` as the claim states for `overlaps == d`. -/
theorem C3_counterexample :
    (cexGraphC3.findEdge ("a", "b")).map (fun e => e.d.overlaps) =
      some (some 1) ∧
    cexGraphC3.dimension = 1 ∧
    (cexGraphC3.region "a").isSome = true ∧
    (cexGraphC3.region "b").isSome = true ∧
    NxGraph.finalizeOverlap cexGraphC3 ("a", "b") = none := by
  refine ⟨rfl, rfl, rfl, rfl, ?_⟩
  decide

/-- C3 (amended): on a tentative edge between nodes whose regions actually
overlap, `finalize_overlap` with `overlaps == d` stores the reference-linked
intersection and drops the count, and with `overlaps < d` removes the edge;
no other nodes or edges are changed.  When `overlaps == d` but the two
regions do not intersect, the call fails on an assertion instead (see the
counterexample). -/
theorem C3_finalize_overlap (g : NxGraph) (k : String × String)
    (e : NxEdge) (a b : Region) (o : Nat)
    (ha : g.region k.1 = some a) (hb : g.region k.2 = some b)
    (hva : a.valid) (hvb : b.valid)
    (he : g.findEdge k = some e) (ho : e.d.overlaps = some o) :
    (o = g.dimension → a.overlaps b = true →
      ∃ ab, a.intersect b = some ab ∧
        g.finalizeOverlap k = some { g with edges := g.edges.map fun e2 =>
          if (edgeMatch k e2) then { e2 with d := ⟨none, some ab⟩ }
          else e2 }) ∧
    (o < g.dimension →
      g.finalizeOverlap k =
        some { g with edges := g.edges.filter fun e2 => !(edgeMatch k e2) }) := by
  have hna := NxGraph.hasNode_of_region ha
  have hnb := NxGraph.hasNode_of_region hb
  constructor
  · intro hod hov
    obtain ⟨ab, hab, -, -, -, -⟩ := Region.intersect_some hva hvb hov
    refine ⟨ab, hab, ?_⟩
    unfold NxGraph.finalizeOverlap
    rw [if_neg (by simp [hna, hnb])]
    simp only [he, ho, ha, hb, hab, if_pos hod.symm]
  · intro hlt
    unfold NxGraph.finalizeOverlap
    rw [if_neg (by simp [hna, hnb])]
    simp only [he, ho]
    rw [if_neg (by omega)]

/-- C3 witness: finalizing the counted edge between the overlapping 1-D
regions c, d stores their intersection on the edge. -/
theorem C3_finalize_overlap_witness :
    ∃ ab, exC.intersect exD = some ab ∧
      NxGraph.finalizeOverlap exGraphCD ("c", "d") =
        some { exGraphCD with edges := exGraphCD.edges.map fun e2 =>
          if (edgeMatch ("c", "d") e2) then { e2 with d := ⟨none, some ab⟩ }
          else e2 } :=
  (C3_finalize_overlap exGraphCD ("c", "d") ⟨"c", "d", ⟨some 1, none⟩⟩
    exC exD 1 rfl rfl (by decide) (by decide) (by decide) rfl).1 rfl (by decide)

/-! ### Shared lemmas for merge -/

/-- Record eta for a known bounds field. -/
theorem RegionSet.eta_bounds {m : RegionSet} {b : Region}
    (h : m.bounds = some b) : { m with bounds := some b } = m := by
  cases m
  simp only at h
  rw [h]

/-- `copy` under a positive effective dimension. -/
theorem RegionSet.copyOp_eq {S : RegionSet}
    (h : effDim S.bounds S.dimension ≠ 0) :
    S.copyOp = some { id := "uuid4",
                      dimension := effDim S.bounds S.dimension,
                      bounds := S.bounds, regions := S.regions } := by
  unfold RegionSet.copyOp
  rw [RegionSet.mkNew_eq_some h]
  rfl

/-- The bounding box of a non-empty collection satisfying its invariant:
it exists, has the collection's dimension, and encloses every member. -/
theorem RegionSet.bboxP_some {rs : RegionSet}
    (hinv : rs.instanceInvariantB = true)
    (hbdim : ∀ c, rs.bounds = some c → c.dimension = rs.dimension)
    (hne : rs.regions ≠ []) :
    ∃ bb, rs.bboxP = some bb ∧ bb.dimension = rs.dimension ∧
      ∀ r ∈ rs.regions, bb.encloses r = true := by
  have hmem := RegionSet.invariant_spec hinv
  unfold RegionSet.bboxP
  rw [if_pos hinv]
  cases hb : rs.bounds with
  | some b =>
    exact ⟨b, rfl, hbdim b hb, fun r hr => (hmem r hr).2 b hb⟩
  | none =>
    match hr : rs.regions, hne with
    | [r], _ =>
      refine ⟨r, rfl, ?_, ?_⟩
      · exact (hmem r (by rw [hr]; simp)).1
      · intro t ht
        rw [List.mem_singleton] at ht
        subst ht
        exact Region.encloses_refl t
    | r :: s :: t, _ =>
      have hd : ∀ x ∈ r :: s :: t, x.intervals.length = rs.dimension := by
        intro x hx
        exact (hmem x (by rw [hr]; exact hx)).1
      obtain ⟨u, hu, hud, hue⟩ :=
        Region.from_union_encloses (by simp) hd
      refine ⟨u, hu, hud, ?_⟩
      intro x hx
      exact hue x hx

/-- The bounds-widening fold of `merge`: it succeeds, only grows the bounds,
and the final bounds enclose the bounding box of every non-empty argument
set. -/
theorem RegionSet.widenFold :
    ∀ (os : List RegionSet) (m : RegionSet) (b : Region),
    (∀ rs ∈ os, rs.instanceInvariantB = true ∧ rs.dimension = m.dimension ∧
      ∀ c, rs.bounds = some c → c.dimension = rs.dimension) →
    m.bounds = some b → b.dimension = m.dimension →
    ∃ b2, os.foldlM RegionSet.widenStep m = some { m with bounds := some b2 } ∧
      b2.dimension = m.dimension ∧ b2.encloses b = true ∧
      ∀ rs ∈ os, rs.regions ≠ [] →
        ∃ bb, rs.bboxP = some bb ∧ b2.encloses bb = true := by
  intro os
  induction os with
  | nil =>
    intro m b hos hm hbd
    refine ⟨b, ?_, hbd, Region.encloses_refl b, by simp⟩
    rw [RegionSet.eta_bounds hm]
    rfl
  | cons rs os ih =>
    intro m b hos hm hbd
    obtain ⟨hinv, hdim, hbdim⟩ := hos rs (by simp)
    rw [List.foldlM_cons]
    by_cases hne : rs.regions.length > 0
    · obtain ⟨bb, hbb, hbbdim, hbbenc⟩ :=
        RegionSet.bboxP_some hinv hbdim (by
          intro hcon
          rw [hcon] at hne
          simp at hne)
      have hlen : b.intervals.length = bb.intervals.length := by
        have h1 : b.dimension = bb.dimension := by rw [hbd, ← hdim, hbbdim]
        exact h1
      by_cases henc : b.encloses bb = true
      · have hstep : RegionSet.widenStep m rs = some m := by
          unfold RegionSet.widenStep
          rw [if_pos hne, hm]
          simp only [hbb, Option.bind_eq_bind, Option.some_bind, if_pos henc]
        rw [hstep]
        obtain ⟨b2, hfold, hb2d, hb2b, hb2os⟩ :=
          ih m b (fun t ht => hos t (by simp [ht])) hm hbd
        refine ⟨b2, hfold, hb2d, hb2b, ?_⟩
        intro t ht
        rcases List.mem_cons.mp ht with rfl | ht2
        · exact fun _ => ⟨bb, hbb, Region.encloses_trans hb2b henc⟩
        · exact hb2os t ht2
      · obtain ⟨b3, hb3, hb3l, hb3r, hb3len⟩ := Region.union_encloses hlen
        have hstep : RegionSet.widenStep m rs =
            some { m with bounds := some b3 } := by
          unfold RegionSet.widenStep
          rw [if_pos hne, hm]
          simp only [hbb, Option.bind_eq_bind, Option.some_bind, if_neg henc,
            hb3]
        rw [hstep]
        have hb3dim : b3.dimension = m.dimension := by
          have : b3.intervals.length = b.intervals.length := hb3len
          rw [← hbd]
          exact this
        obtain ⟨b2, hfold, hb2d, hb2b3, hb2os⟩ :=
          ih { m with bounds := some b3 } b3
            (fun t ht => by
              obtain ⟨q1, q2, q3⟩ := hos t (by simp [ht])
              exact ⟨q1, q2, q3⟩)
            rfl hb3dim
        refine ⟨b2, ?_, hb2d, ?_, ?_⟩
        · exact hfold
        · exact Region.encloses_trans hb2b3 hb3l
        · intro t ht
          rcases List.mem_cons.mp ht with rfl | ht2
          · exact fun _ => ⟨bb, hbb,
              Region.encloses_trans hb2b3 hb3r⟩
          · exact hb2os t ht2
    · have hstep : RegionSet.widenStep m rs = some m := by
        unfold RegionSet.widenStep
        rw [if_neg hne]
      rw [hstep]
      obtain ⟨b2, hfold, hb2d, hb2b, hb2os⟩ :=
        ih m b (fun t ht => hos t (by simp [ht])) hm hbd
      refine ⟨b2, hfold, hb2d, hb2b, ?_⟩
      intro t ht
      rcases List.mem_cons.mp ht with rfl | ht2
      · intro hcon
        exact absurd (List.length_eq_zero.mp (by omega)) hcon
      · exact hb2os t ht2

/-- Folding id-tagged adds of one source set's members. -/
theorem RegionSet.add_fold_tag (pre : String) :
    ∀ (l : List Region) (m : RegionSet),
    (∀ r ∈ l, r.dimension = m.dimension ∧
      ∀ b, m.bounds = some b → b.encloses r = true) →
    l.foldlM (fun m2 r => m2.add { r with id := pre ++ "_" ++ r.id }) m =
      some { m with regions :=
        m.regions ++ l.map (fun r => { r with id := pre ++ "_" ++ r.id }) } := by
  intro l
  induction l with
  | nil =>
    intro m _
    simp only [List.foldlM_nil, List.map_nil, List.append_nil]
    rfl
  | cons r l ih =>
    intro m h
    obtain ⟨hd, hb⟩ := h r (by simp)
    rw [List.foldlM_cons]
    have hadd : m.add { r with id := pre ++ "_" ++ r.id } =
        some { m with regions :=
          m.regions ++ [{ r with id := pre ++ "_" ++ r.id }] } :=
      RegionSet.add_eq_some hd hb
    rw [hadd]
    have hih := ih { m with regions :=
        m.regions ++ [{ r with id := pre ++ "_" ++ r.id }] }
      (fun t ht => h t (by simp [ht]))
    simp only [Option.bind_eq_bind, Option.some_bind]
    rw [hih]
    simp

/-- The member-adding fold of `merge`. -/
theorem RegionSet.addTagged_fold :
    ∀ (os : List RegionSet) (m : RegionSet),
    (∀ rs ∈ os, ∀ r ∈ rs.regions, r.dimension = m.dimension ∧
      ∀ b, m.bounds = some b → b.encloses r = true) →
    os.foldlM RegionSet.addTagged m =
      some { m with regions := m.regions ++ os.flatMap (fun rs =>
        rs.regions.map (fun r => { r with id := rs.id ++ "_" ++ r.id })) } := by
  intro os
  induction os with
  | nil =>
    intro m _
    simp only [List.foldlM_nil, List.flatMap_nil, List.append_nil]
    rfl
  | cons rs os ih =>
    intro m h
    rw [List.foldlM_cons]
    have hone : m.addTagged rs = some { m with regions := m.regions ++ rs.regions.map (fun r =>
        { r with id := rs.id ++ "_" ++ r.id }) } := by
      unfold RegionSet.addTagged
      exact RegionSet.add_fold_tag rs.id rs.regions m (h rs (by simp))
    rw [hone]
    have hih := ih { m with regions := m.regions ++ rs.regions.map (fun r =>
        { r with id := rs.id ++ "_" ++ r.id }) }
      (fun t ht r hr => h t (by simp [ht]) r hr)
    simp only [Option.bind_eq_bind, Option.some_bind]
    rw [hih]
    simp

/-! ### Claim C8 -/

/-- C8: `merge(others)` succeeds on a non-empty list of same-dimension
collections satisfying their invariants; every member coming from an
argument set is added with its id prefixed by that set's id (members of the
receiver keep their ids); and when the receiver's bounds are set, the merged
bounds enclose the bounding box of every non-empty argument set. -/
theorem C8_merge (S : RegionSet) (others : List RegionSet)
    (hne : others ≠ [])
    (hdim : ∀ rs ∈ others, rs.dimension = S.dimension)
    (hinv : ∀ rs ∈ others, rs.instanceInvariantB = true)
    (hbdim : ∀ rs ∈ others, ∀ c, rs.bounds = some c → c.dimension = rs.dimension)
    (hSdim : S.dimension ≠ 0)
    (hSbdim : ∀ b, S.bounds = some b → b.dimension = S.dimension) :
    ∃ M, S.mergeOp others = some M ∧
      M.dimension = S.dimension ∧
      M.regions = S.regions ++ others.flatMap (fun rs =>
        rs.regions.map (fun r => { r with id := rs.id ++ "_" ++ r.id })) ∧
      (S.bounds = none → M.bounds = none) ∧
      (∀ b, S.bounds = some b → ∃ b2, M.bounds = some b2 ∧
        ∀ rs ∈ others, rs.regions ≠ [] →
          ∃ bb, rs.bboxP = some bb ∧ b2.encloses bb = true) := by
  have hEmp : others.isEmpty = false := by
    cases others with
    | nil => exact absurd rfl hne
    | cons o os => rfl
  have hAny : (others.any fun rs => rs.dimension != S.dimension) = false := by
    rw [List.any_eq_false]
    intro rs hrs
    simp [hdim rs hrs]
  have heff : effDim S.bounds S.dimension = S.dimension := by
    cases hb : S.bounds with
    | none => rfl
    | some b => simpa [effDim] using hSbdim b hb
  unfold RegionSet.mergeOp
  rw [hEmp, hAny]
  simp only [Bool.false_eq_true, if_false]
  rw [RegionSet.copyOp_eq (by rw [heff]; exact hSdim)]
  simp only [Option.bind_eq_bind, Option.some_bind]
  cases hSb : S.bounds with
  | none =>
    simp only [hSb]
    have hfold := RegionSet.addTagged_fold others
      { id := "uuid4", dimension := effDim none S.dimension,
        bounds := none, regions := S.regions }
      (fun rs hrs r hr =>
        ⟨by
          show r.dimension = effDim none S.dimension
          rw [(RegionSet.invariant_spec (hinv rs hrs) r hr).1, hdim rs hrs]
          rfl,
         fun c hc => by cases hc⟩)
    refine ⟨{ id := "uuid4", dimension := effDim none S.dimension,
              bounds := none,
              regions := S.regions ++ others.flatMap (fun rs =>
                rs.regions.map (fun r =>
                  { r with id := rs.id ++ "_" ++ r.id })) },
           ?_, rfl, rfl, fun _ => rfl, fun c hc => nomatch hc⟩
    simp only [Option.pure_def, Option.some_bind]
    exact hfold
  | some b =>
    simp only [hSb]
    have heff2 : effDim (some b) S.dimension = S.dimension := by
      simpa [effDim] using hSbdim b hSb
    obtain ⟨b2, hfold, hb2d, hb2b, hb2os⟩ := RegionSet.widenFold others
      { id := "uuid4", dimension := effDim (some b) S.dimension,
        bounds := some b, regions := S.regions } b
      (fun rs hrs => ⟨hinv rs hrs, by rw [heff2]; exact hdim rs hrs,
        hbdim rs hrs⟩)
      rfl (by rw [heff2]; exact hSbdim b hSb)
    have hfold2 := RegionSet.addTagged_fold others
      { id := "uuid4", dimension := effDim (some b) S.dimension,
        bounds := some b2, regions := S.regions }
      ?_
    · refine ⟨{ id := "uuid4", dimension := effDim (some b) S.dimension,
                bounds := some b2,
                regions := S.regions ++ others.flatMap (fun rs =>
                  rs.regions.map (fun r =>
                    { r with id := rs.id ++ "_" ++ r.id })) },
             ?_, ?_, ?_, ?_, ?_⟩
      · rw [hfold]
        simp only [Option.some_bind]
        exact hfold2
      · simpa using heff2
      · rfl
      · intro hcon
        cases hcon
      · intro c hc
        obtain rfl := Option.some.inj hc
        exact ⟨b2, rfl, hb2os⟩
    · intro rs hrs r hr
      refine ⟨?_, ?_⟩
      · show r.dimension = effDim (some b) S.dimension
        rw [(RegionSet.invariant_spec (hinv rs hrs) r hr).1, hdim rs hrs, heff2]
      · intro c hc
        obtain rfl := Option.some.inj hc
        have hrne : rs.regions ≠ [] := by
          intro hq
          rw [hq] at hr
          cases hr
        obtain ⟨bb, hbb, hence⟩ := hb2os rs hrs hrne
        obtain ⟨bb2, hbb2, -, hencm⟩ :=
          RegionSet.bboxP_some (hinv rs hrs) (hbdim rs hrs) hrne
        rw [hbb] at hbb2
        obtain rfl := Option.some.inj hbb2
        exact Region.encloses_trans hence (hencm r hr)

/-- C8 witness: merging the bounded set (bounds `[0,4]`, members c, f) with
the unbounded set of a, b yields the members of both, the argument set's
members carrying prefixed ids. -/
theorem C8_merge_witness :
    ∃ M, exSetCF.mergeOp [exSetAB] = some M ∧
      M.regions = [exC, exF, { exA with id := "s_a" },
        { exB with id := "s_b" }] := by
  obtain ⟨M, hM, -, hreg, -, -⟩ := C8_merge exSetCF [exSetAB]
    (by simp)
    (by intro rs hrs; rw [List.mem_singleton] at hrs; subst hrs; rfl)
    (by intro rs hrs; rw [List.mem_singleton] at hrs; subst hrs; rfl)
    (by
      intro rs hrs c hc
      rw [List.mem_singleton] at hrs
      subst hrs
      cases hc)
    (by decide)
    (by
      intro c hc
      simp only [exSetCF, Option.some.injEq] at hc
      subst hc
      rfl)
  refine ⟨M, hM, ?_⟩
  rw [hreg]
  rfl

/-! ### Shared lemmas for serialization -/

/-- Interval lists survive the object representation. -/
theorem intervals_to_from (l : List Interval) :
    (l.map (fun i => ((i.lower, i.upper) : ℚ × ℚ))).map
      (fun p => Interval.mk p.1 p.2) = l := by
  induction l with
  | nil => rfl
  | cons a l ih => simp [ih]

/-- A valid region with a non-empty id survives the object round trip,
parent back-references included. -/
theorem Region.from_to {r : Region} (hv : r.valid) (hid : r.id.length ≠ 0) :
    Region.from_object (Region.to_object r) = some r := by
  unfold Region.from_object Region.to_object
  rw [if_pos ?_]
  · have hlen : 0 < r.id.length := Nat.pos_of_ne_zero hid
    simp only [if_pos hlen, intervals_to_from]
  · constructor
    · simp
    · intro p hp
      rw [List.mem_map] at hp
      obtain ⟨i, hi, rfl⟩ := hp
      exact hv i hi

/-- The region-adding fold of `from_dict` over serialized regions. -/
theorem RegionSet.from_dict_fold :
    ∀ (l : List Region) (acc : RegionSet),
    (∀ r ∈ l, r.valid ∧ r.id.length ≠ 0 ∧ r.dimension = acc.dimension ∧
      ∀ b, acc.bounds = some b → b.encloses r = true) →
    (l.map Region.to_object).foldlM
        (fun acc2 ro => (Region.from_object ro).bind acc2.add) acc =
      some { acc with regions := acc.regions ++ l } := by
  intro l
  induction l with
  | nil =>
    intro acc _
    simp only [List.map_nil, List.foldlM_nil, List.append_nil]
    rfl
  | cons r l ih =>
    intro acc h
    obtain ⟨h1, h2, h3, h4⟩ := h r (by simp)
    rw [List.map_cons, List.foldlM_cons, Region.from_to h1 h2,
      Option.some_bind, RegionSet.add_eq_some h3 h4]
    have hih := ih { acc with regions := acc.regions ++ [r] }
      (fun t ht => h t (by simp [ht]))
    simp only [Option.bind_eq_bind, Option.some_bind]
    rw [hih]
    simp

/-- A parent id with a matching member resolves. -/
theorem resolveRegionId_some {S : RegionSet} {i : String}
    (hi : i.length ≠ 0) (hmem : ∃ m ∈ S.regions, m.id = i) :
    ∃ r, resolveRegionId S none i = some r := by
  unfold resolveRegionId RegionSet.get
  rw [if_neg hi]
  simp only [Option.some_bind]
  obtain ⟨m, hm, hid⟩ := hmem
  have hsome : (S.regions.find? fun r => r.id == i).isSome := by
    rw [List.find?_isSome]
    exact ⟨m, hm, by simp [hid]⟩
  cases hfind : S.regions.find? fun r => r.id == i with
  | none => rw [hfind] at hsome; cases hsome
  | some r => exact ⟨r, rfl⟩

/-- Backlink resolution succeeds when every parent id is a member id. -/
theorem checkBacklinks_some {S : RegionSet}
    (hp : ∀ r ∈ S.regions, ∀ ids,
      (r.iparents = some ids ∨ r.uparents = some ids) →
      ∀ i ∈ ids, i.length ≠ 0 ∧ ∃ m ∈ S.regions, m.id = i) :
    checkBacklinks S none = some S := by
  unfold checkBacklinks
  have hres : ∀ r ∈ S.regions, ∃ u : Unit, checkLinksR S none r = some u := by
    intro r hr
    have hstep : ∀ po : Option (List String),
        (po = r.iparents ∨ po = r.uparents) →
        ∃ u : Unit, checkLinks1 S none po = some u := by
      intro po hpo
      cases po with
      | none => exact ⟨(), rfl⟩
      | some ids =>
        have hall : ∀ i ∈ ids, ∃ r2, resolveRegionId S none i = some r2 := by
          intro i hi
          have hcase : r.iparents = some ids ∨ r.uparents = some ids := by
            rcases hpo with hh | hh
            · exact Or.inl hh.symm
            · exact Or.inr hh.symm
          obtain ⟨hne, hm⟩ := hp r hr ids hcase i hi
          exact resolveRegionId_some hne hm
        obtain ⟨bl, hbl, -⟩ := mapM_exists_some hall
        refine ⟨(), ?_⟩
        show (ids.mapM (resolveRegionId S none)).map (fun _ => ()) = some ()
        rw [hbl]
        rfl
    obtain ⟨u1, hu1⟩ := hstep r.iparents (Or.inl rfl)
    obtain ⟨u2, hu2⟩ := hstep r.uparents (Or.inr rfl)
    refine ⟨u2, ?_⟩
    unfold checkLinksR
    rw [hu1, Option.some_bind]
    exact hu2
  obtain ⟨ul, hul, -⟩ := mapM_exists_some hres
  rw [hul]
  rfl

/-! ### Claim C6 -/

/-- C6: the round trip `from_object(to_object(S))` (default full
representation) reconstructs a RegionSet equal to S on all fields: same id,
dimension, bounds, and regions in order, with derived regions' parent
back-references resolved within the set; this holds for every member count,
the empty collection included. -/
theorem C6_roundtrip (S : RegionSet)
    (hid : S.id.length ≠ 0) (hdim : S.dimension ≠ 0)
    (hinv : S.instanceInvariantB = true)
    (hval : ∀ r ∈ S.regions, r.valid ∧ r.id.length ≠ 0)
    (hbn : ∀ b, S.bounds = some b →
      b.dimension = S.dimension ∧ b.valid ∧ b.id.length ≠ 0)
    (hpar : ∀ r ∈ S.regions, ∀ ids,
      (r.iparents = some ids ∨ r.uparents = some ids) →
      ∀ i ∈ ids, i.length ≠ 0 ∧ ∃ m ∈ S.regions, m.id = i) :
    RegionSet.from_objectS S.to_object none = some S := by
  have hmem := RegionSet.invariant_spec hinv
  have hbase : fromDictBase (RegionSet.to_object S) =
      some { id := S.id, dimension := S.dimension, bounds := S.bounds,
             regions := [] } := by
    unfold fromDictBase
    show (match S.bounds.map Region.to_object with
      | some bo => (Region.from_object bo).bind fun b =>
          RegionSet.mkNew S.id (some b) 1
      | none =>
        if S.dimension = 0 then none
        else RegionSet.mkNew S.id none S.dimension) = _
    cases hSb : S.bounds with
    | none =>
      simp only [Option.map_none']
      rw [if_neg hdim, RegionSet.mkNew_eq_some (by simpa [effDim] using hdim)]
      rw [if_pos (Nat.pos_of_ne_zero hid)]
      rfl
    | some b =>
      obtain ⟨hbd, hbv, hbid⟩ := hbn b hSb
      simp only [Option.map_some']
      rw [Region.from_to hbv hbid, Option.some_bind,
        RegionSet.mkNew_eq_some (by simpa [effDim] using hbd ▸ hdim)]
      rw [if_pos (Nat.pos_of_ne_zero hid)]
      simp [effDim, hbd]
  have hfold := RegionSet.from_dict_fold S.regions
    { id := S.id, dimension := S.dimension, bounds := S.bounds, regions := [] }
    (fun r hr => ⟨(hval r hr).1, (hval r hr).2, (hmem r hr).1,
      fun b hb => (hmem r hr).2 b hb⟩)
  have hcheck : checkBacklinks
      { id := S.id, dimension := S.dimension, bounds := S.bounds,
        regions := [] ++ S.regions } none =
      some { id := S.id, dimension := S.dimension, bounds := S.bounds,
             regions := [] ++ S.regions } := by
    apply checkBacklinks_some
    intro r hr ids hids i hi
    simp only [List.nil_append] at hr
    obtain ⟨hne, m, hm, hmid⟩ := hpar r hr ids hids i hi
    exact ⟨hne, m, by simp [hm], hmid⟩
  unfold RegionSet.from_objectS RegionSet.from_dict
  rw [hbase]
  simp only [Option.bind_eq_bind, Option.some_bind]
  have hobj : (RegionSet.to_object S).regions = S.regions.map Region.to_object :=
    rfl
  rw [hobj, hfold]
  simp only [Option.bind_eq_bind, Option.some_bind]
  show checkBacklinks
      { id := S.id, dimension := S.dimension, bounds := S.bounds,
        regions := [] ++ S.regions } none =
    some S
  rw [hcheck]
  simp

/-- C6 witness: a set holding the derived region x (parents c, d) round
trips to itself. -/
theorem C6_roundtrip_witness :
    RegionSet.from_objectS exSetDer.to_object none = some exSetDer := by
  apply C6_roundtrip exSetDer (by decide) (by decide) (by decide)
    (by decide) ?_ ?_
  · intro b hb
    simp only [exSetDer] at hb
    cases hb
  · intro r hr ids hids i hi
    simp only [exSetDer, List.mem_cons, List.not_mem_nil, or_false] at hr
    rcases hr with rfl | rfl | rfl
    · rcases hids with hh | hh <;> cases hh
    · rcases hids with hh | hh <;> cases hh
    · rcases hids with hh | hh
      · obtain rfl := Option.some.inj hh
        rcases List.mem_cons.mp hi with rfl | hi2
        · exact ⟨by decide, exC, by simp [exSetDer], rfl⟩
        · rcases List.mem_cons.mp hi2 with rfl | hi3
          · exact ⟨by decide, exD, by simp [exSetDer], rfl⟩
          · cases hi3
      · cases hh

/-! ### Shared lemmas for the heap model -/

/-- Materialising a set at fresh references: the result is the old object
allocation cursor, and every previously allocated object and list is
untouched. -/
theorem Heap.putNewSet_frame {h : Heap} {S : RegionSet} (o n : Nat)
    (ho : o < h.objsNext) (hn : n < h.listsNext) :
    (h.putNewSet S).1 = h.objsNext ∧
    (h.putNewSet S).2.objs o = h.objs o ∧
    (h.putNewSet S).2.lists n = h.lists n ∧
    ((h.putNewSet S).2.objs (h.putNewSet S).1).regionsRef = h.listsNext ∧
    (h.putNewSet S).2.listsNext = h.listsNext + 1 := by
  unfold Heap.putNewSet Heap.allocList Heap.allocObj
  refine ⟨rfl, ?_, ?_, ?_, rfl⟩
  · simp only []
    rw [if_neg (Nat.ne_of_lt ho)]
  · simp only []
    rw [if_neg (Nat.ne_of_lt hn)]
  · simp

/-! ### Claim C9 -/

/-- C9: `copy`, `shuffle`, `filter`, `subset` and `merge` each return a newly
constructed RegionSet object (a fresh reference, never the receiver's), and
leave the receiver untouched: its attribute record and its regions list are
unchanged in the heap after the call. -/
theorem C9_clone_frame (h : Heap) (o : Nat)
    (ho : o < h.objsNext) (hl : (h.objs o).regionsRef < h.listsNext) :
    (∀ p, copyStore h o = some p → p.1 ≠ o ∧ p.2.objs o = h.objs o ∧
      p.2.lists (h.objs o).regionsRef = h.lists (h.objs o).regionsRef) ∧
    (∀ perm p, shuffleStore h o perm = some p → p.1 ≠ o ∧
      p.2.objs o = h.objs o ∧
      p.2.lists (h.objs o).regionsRef = h.lists (h.objs o).regionsRef) ∧
    (∀ bounds p, filterStore h o bounds = some p → p.1 ≠ o ∧
      p.2.objs o = h.objs o ∧
      p.2.lists (h.objs o).regionsRef = h.lists (h.objs o).regionsRef) ∧
    (∀ l p, subsetStore h o l = some p → p.1 ≠ o ∧
      p.2.objs o = h.objs o ∧
      p.2.lists (h.objs o).regionsRef = h.lists (h.objs o).regionsRef) ∧
    (∀ refs p, mergeStore h o refs = some p → p.1 ≠ o ∧
      p.2.objs o = h.objs o ∧
      p.2.lists (h.objs o).regionsRef = h.lists (h.objs o).regionsRef) := by
  have hput : ∀ S : RegionSet, ∀ p, h.putNewSet S = p → p.1 ≠ o ∧
      p.2.objs o = h.objs o ∧
      p.2.lists (h.objs o).regionsRef = h.lists (h.objs o).regionsRef := by
    intro S p hp
    obtain ⟨q1, q2, q3, -, -⟩ :=
      @Heap.putNewSet_frame h S o (h.objs o).regionsRef ho hl
    rw [hp] at q1 q2 q3
    exact ⟨by rw [q1]; exact Nat.ne_of_gt ho, q2, q3⟩
  have hcopy : ∀ p, copyStore h o = some p → p.1 ≠ o ∧
      p.2.objs o = h.objs o ∧
      p.2.lists (h.objs o).regionsRef = h.lists (h.objs o).regionsRef := by
    intro p hp
    unfold copyStore at hp
    rw [Option.map_eq_some'] at hp
    obtain ⟨T, -, hput2⟩ := hp
    exact hput T p hput2
  refine ⟨hcopy, ?_, ?_, ?_, ?_⟩
  · intro perm p hp
    unfold shuffleStore at hp
    rw [Option.map_eq_some'] at hp
    obtain ⟨q, hq, hp2⟩ := hp
    unfold copyStore at hq
    rw [Option.map_eq_some'] at hq
    obtain ⟨T, -, hput2⟩ := hq
    obtain ⟨w1, w2, w3, w4, -⟩ :=
      @Heap.putNewSet_frame h T o (h.objs o).regionsRef ho hl
    rw [hput2] at w1 w2 w3 w4
    subst hp2
    refine ⟨by simpa [w1] using Nat.ne_of_gt ho, ?_, ?_⟩
    · exact w2
    · show (q.2.writeList (q.2.objs q.1).regionsRef _).lists
        (h.objs o).regionsRef = _
      unfold Heap.writeList
      simp only []
      rw [if_neg ?_, w3]
      rw [w4]
      exact Nat.ne_of_lt hl
  · intro bounds p hp
    unfold filterStore at hp
    rw [Option.map_eq_some'] at hp
    obtain ⟨T, -, hput2⟩ := hp
    exact hput T p hput2
  · intro l p hp
    unfold subsetStore at hp
    rw [Option.map_eq_some'] at hp
    obtain ⟨T, -, hput2⟩ := hp
    exact hput T p hput2
  · intro refs p hp
    unfold mergeStore at hp
    rw [Option.map_eq_some'] at hp
    obtain ⟨T, -, hput2⟩ := hp
    exact hput T p hput2

/-- C9 witness: copying the concrete one-object heap returns a new reference
and leaves the receiver's list unchanged. -/
theorem C9_clone_frame_witness :
    ∃ p, copyStore hW 0 = some p ∧ p.1 ≠ 0 ∧
      p.2.lists (hW.objs 0).regionsRef = hW.lists (hW.objs 0).regionsRef := by
  cases hE : copyStore hW 0 with
  | none =>
    have hs : (copyStore hW 0).isSome = true := by decide
    rw [hE] at hs
    cases hs
  | some p =>
    obtain ⟨q1, -, q3⟩ :=
      (C9_clone_frame hW 0 (by decide) (by decide)).1 p hE
    exact ⟨p, rfl, q1, q3⟩

/-! ### Shared lemmas for clique enumeration -/

/-- Reading the graph well-formedness predicate. -/
theorem NxGraph.wfB_spec {g : NxGraph} (h : g.wfB = true) :
    (∀ p ∈ g.nodes, ∃ r, p.2 = some r ∧ r.id = p.1 ∧ r.valid ∧
      r.dimension = g.dimension) ∧
    g.nodeIds.Nodup ∧
    (∀ e ∈ g.edges, ∃ a b, g.region e.u = some a ∧ g.region e.v = some b ∧
      a.overlaps b = true) := by
  unfold NxGraph.wfB at h
  rw [Bool.and_eq_true, Bool.and_eq_true] at h
  obtain ⟨⟨h1, h2⟩, h3⟩ := h
  rw [List.all_eq_true] at h1 h3
  refine ⟨?_, by simpa using h2, ?_⟩
  · intro p hp
    have hq := h1 p hp
    cases hp2 : p.2 with
    | none => rw [hp2] at hq; cases hq
    | some r =>
      rw [hp2] at hq
      simp only [Bool.and_eq_true, beq_iff_eq, decide_eq_true_iff] at hq
      exact ⟨r, rfl, hq.1.1, hq.1.2, hq.2⟩
  · intro e he
    have hq := h3 e he
    cases hu : g.region e.u with
    | none => rw [hu] at hq; cases hq
    | some a =>
      cases hv : g.region e.v with
      | none => rw [hu, hv] at hq; cases hq
      | some b =>
        rw [hu, hv] at hq
        exact ⟨a, b, rfl, rfl, hq⟩

/-- Node membership in terms of the node id list. -/
theorem NxGraph.hasNode_iff {g : NxGraph} {k : String} :
    g.hasNode k = true ↔ k ∈ g.nodeIds := by
  unfold NxGraph.hasNode NxGraph.nodeIds
  rw [List.any_eq_true]
  constructor
  · intro ⟨p, hp, hpk⟩
    rw [List.mem_map]
    exact ⟨p, hp, by simpa using hpk.symm⟩
  · intro h
    rw [List.mem_map] at h
    obtain ⟨p, hp, rfl⟩ := h
    exact ⟨p, hp, by simp⟩

/-- The region lookup of a node id in a well-formed graph. -/
theorem NxGraph.region_of_mem {g : NxGraph} (hwf : g.wfB = true) {k : String}
    (hk : k ∈ g.nodeIds) :
    g.region k = some (g.regionD k) ∧ (g.regionD k).id = k ∧
      (g.regionD k).valid ∧ (g.regionD k).dimension = g.dimension := by
  obtain ⟨h1, -, -⟩ := NxGraph.wfB_spec hwf
  have hk2 : k ∈ g.nodes.map Prod.fst := hk
  have hsome : (g.nodes.find? (·.1 == k)).isSome := by
    rw [List.find?_isSome]
    rw [List.mem_map] at hk2
    obtain ⟨p, hp, rfl⟩ := hk2
    exact ⟨p, hp, by simp⟩
  cases hf : g.nodes.find? (·.1 == k) with
  | none => rw [hf] at hsome; cases hsome
  | some p =>
    have hmem := List.mem_of_find?_eq_some hf
    have hpk : p.1 = k := by simpa using List.find?_some hf
    obtain ⟨r, hr, hrid, hrv, hrd⟩ := h1 p hmem
    have hreg : g.region k = some r := by
      unfold NxGraph.region
      rw [hf]
      simp only [Option.some_bind]
      exact hr
    have hrD : g.regionD k = r := by
      unfold NxGraph.regionD
      rw [hreg]
      rfl
    rw [hrD, hreg]
    exact ⟨rfl, by rw [hrid, hpk], hrv, hrd⟩

theorem edgeMatch_swap (a b : String) (e : NxEdge) :
    edgeMatch (a, b) e = edgeMatch (b, a) e := by
  unfold edgeMatch
  exact Bool.or_comm _ _

/-- Adjacency as edge existence. -/
theorem NxGraph.adj_exists {g : NxGraph} {a b : String} :
    g.adj a b = true ↔ ∃ e ∈ g.edges, edgeMatch (a, b) e = true := by
  unfold NxGraph.adj NxGraph.findEdge
  rw [List.find?_isSome]

theorem NxGraph.adj_symm {g : NxGraph} {a b : String}
    (h : g.adj a b = true) : g.adj b a = true := by
  rw [NxGraph.adj_exists] at h ⊢
  obtain ⟨e, he, hm⟩ := h
  exact ⟨e, he, by rw [← edgeMatch_swap]; exact hm⟩

/-- Adjacent nodes of a well-formed graph carry overlapping regions. -/
theorem NxGraph.adj_overlaps {g : NxGraph} (hwf : g.wfB = true)
    {a b : String} (hadj : g.adj a b = true) :
    ∃ ra rb, g.region a = some ra ∧ g.region b = some rb ∧
      ra.overlaps rb = true := by
  obtain ⟨-, -, h3⟩ := NxGraph.wfB_spec hwf
  rw [NxGraph.adj_exists] at hadj
  obtain ⟨e, he, hm⟩ := hadj
  obtain ⟨ra, rb, hu, hv, hov⟩ := h3 e he
  unfold edgeMatch at hm
  rw [Bool.or_eq_true, Bool.and_eq_true, Bool.and_eq_true] at hm
  simp only [beq_iff_eq] at hm
  rcases hm with ⟨rfl, rfl⟩ | ⟨rfl, rfl⟩
  · exact ⟨ra, rb, hu, hv, hov⟩
  · exact ⟨rb, ra, hv, hu, by rw [Region.overlaps_symm]; exact hov⟩

/-- Boolean pairwise adjacency as a `Pairwise` proposition. -/
theorem pairwiseAdj_iff (g : NxGraph) :
    ∀ c : List String, pairwiseAdj g c = true ↔
      c.Pairwise (fun a b => g.adj a b = true) := by
  intro c
  induction c with
  | nil => simp [pairwiseAdj]
  | cons a c ih =>
    have hc : pairwiseAdj g (a :: c) = (c.all (g.adj a) && pairwiseAdj g c) :=
      rfl
    rw [hc, Bool.and_eq_true, List.all_eq_true, List.pairwise_cons, ih]

/-- Membership in the size-≥-2 clique enumeration. -/
theorem NxGraph.mem_cliquesGe2 {g : NxGraph} {c : List String} :
    c ∈ g.cliquesGe2 ↔ c.Sublist g.nodeIds ∧
      c.Pairwise (fun a b => g.adj a b = true) ∧ 1 < c.length := by
  unfold NxGraph.cliquesGe2
  rw [List.mem_filter, List.mem_filter, List.mem_sublists]
  rw [pairwiseAdj_iff, decide_eq_true_iff]
  tauto

theorem NxGraph.regionD_eq {g : NxGraph} {a : String} {ra : Region}
    (h : g.region a = some ra) : g.regionD a = ra := by
  unfold NxGraph.regionD
  rw [h]
  rfl

/-- The regions of a clique are pairwise overlapping. -/
theorem NxGraph.clique_pairwise_overlaps {g : NxGraph} (hwf : g.wfB = true)
    {c : List String} (hpw : c.Pairwise (fun a b => g.adj a b = true)) :
    (c.map g.regionD).Pairwise (fun x y => x.overlaps y = true) := by
  rw [List.pairwise_map]
  refine hpw.imp ?_
  intro a b hadj
  obtain ⟨ra, rb, hu, hv, hov⟩ := NxGraph.adj_overlaps hwf hadj
  rw [NxGraph.regionD_eq hu, NxGraph.regionD_eq hv]
  exact hov

/-- Helly for cliques: every clique of size ≥ 2 in a well-formed region
intersection graph has a non-empty d-dimensional intersection. -/
theorem NxGraph.clique_pair_some {g : NxGraph} (hwf : g.wfB = true)
    {c : List String} (hc : c ∈ g.cliquesGe2) :
    ∃ I, Region.from_intersect (c.map g.regionD) = some I ∧
      g.cliquePair c = (I, c.map g.regionD) := by
  obtain ⟨hsub, hpw, hlen⟩ := NxGraph.mem_cliquesGe2.mp hc
  have hne : c.map g.regionD ≠ [] := by
    cases c with
    | nil => simp at hlen
    | cons x xs => simp
  have hval : ∀ r ∈ c.map g.regionD, r.valid := by
    intro r hr
    rw [List.mem_map] at hr
    obtain ⟨k, hk, rfl⟩ := hr
    exact (NxGraph.region_of_mem hwf (hsub.subset hk)).2.2.1
  obtain ⟨I, hI, -, -⟩ := Region.from_intersect_some hne hval
    (NxGraph.clique_pairwise_overlaps hwf hpw)
  refine ⟨I, hI, ?_⟩
  unfold NxGraph.cliquePair
  rw [hI]
  rfl

/-- The enumeration of a well-formed graph succeeds and produces exactly one
pair per clique of size ≥ 2, matching the skip semantics (which, no clique
intersection being empty, skips nothing). -/
theorem NxGraph.enumCompute_eq {g : NxGraph} (hwf : g.wfB = true) :
    g.enumCompute = some (g.cliquesGe2.map g.cliquePair) ∧
    g.enumSkipList = g.cliquesGe2.map g.cliquePair := by
  have hcore : ∀ c ∈ g.cliquesGe2, c.mapM g.region = some (c.map g.regionD) ∧
      ∃ I, Region.from_intersect (c.map g.regionD) = some I ∧
        g.cliquePair c = (I, c.map g.regionD) := by
    intro c hc
    obtain ⟨hsub, hpw, hlen⟩ := NxGraph.mem_cliquesGe2.mp hc
    exact ⟨mapM_eq_map_some g.region g.regionD c
      (fun k hk => (NxGraph.region_of_mem hwf (hsub.subset hk)).1),
      NxGraph.clique_pair_some hwf hc⟩
  constructor
  · unfold NxGraph.enumCompute
    apply mapM_eq_map_some
    intro c hc
    obtain ⟨hmap, I, hI, hP⟩ := hcore c hc
    show ((c.mapM g.region).bind fun regs =>
      (Region.from_intersect regs).bind fun reg => some (reg, regs)) =
      some (g.cliquePair c)
    rw [hmap]
    simp only [Option.some_bind]
    rw [hI]
    simp only [Option.some_bind]
    rw [hP]
  · unfold NxGraph.enumSkipList
    apply filterMap_eq_map_some
    intro c hc
    obtain ⟨hmap, I, hI, hP⟩ := hcore c hc
    rw [hmap]
    simp only [Option.some_bind]
    rw [hI, Option.map_some', hP]

/-! ### Claim C1 -/

/-- C1 counterexample: the graph built through the public API over the two
disjoint regions a, b — `put_region` twice then `put_overlap` (which stores
`intersect=None` without complaint) — has the single clique `[a, b]` of size
≥ 2, whose intersection is empty.  The spec-described semantics skips it and
yields no pair, but `compute` hits the `assert isinstance(region, Region)`
and aborts instead of skipping: the enumeration as implemented does not
equal the skip semantics. -/
theorem C1_counterexample :
    cexGraphC1.cliquesGe2 = [["a", "b"]] ∧
    cexGraphC1.enumSkipList = [] ∧
    cexGraphC1.enumCompute = none ∧
    cexGraphC1.enumCompute ≠ some cexGraphC1.enumSkipList := by
  refine ⟨by decide, by decide, by decide, by decide⟩

/-- C1 (amended): on every region intersection graph satisfying the data
model (nodes carry valid regions of the graph's dimension keyed by id,
edges join overlapping regions), the enumeration succeeds and agrees with
the skip semantics, yielding for every clique of size ≥ 2 the pair
(from_intersect of members, members) — all intersections non-empty by the
Helly property of boxes, so nothing is ever skipped.  On a graph carrying a
clique with an empty intersection, compute aborts on its assert rather than
skipping (see the counterexample). -/
theorem C1_enumerate_all (g : NxGraph) (hwf : g.wfB = true) :
    g.enumCompute = some g.enumSkipList ∧
    g.enumSkipList.length = g.cliquesGe2.length ∧
    ∀ p ∈ g.enumSkipList, ∃ c ∈ g.cliquesGe2,
      Region.from_intersect (c.map g.regionD) = some p.1 ∧
      p.2 = c.map g.regionD := by
  obtain ⟨h1, h2⟩ := NxGraph.enumCompute_eq hwf
  refine ⟨by rw [h1, h2], by rw [h2, List.length_map], ?_⟩
  intro p hp
  rw [h2, List.mem_map] at hp
  obtain ⟨c, hc, rfl⟩ := hp
  obtain ⟨I, hI, hP⟩ := NxGraph.clique_pair_some hwf hc
  refine ⟨c, hc, ?_, ?_⟩
  · rw [hP]
    exact hI
  · rw [hP]

/-- C1 witness: the triangle graph over the mutually overlapping 1-D
regions c, d, e enumerates all four cliques of size ≥ 2 without aborting. -/
theorem C1_enumerate_all_witness :
    exGraphCDE.enumCompute = some exGraphCDE.enumSkipList ∧
    exGraphCDE.enumSkipList.length = exGraphCDE.cliquesGe2.length :=
  ⟨(C1_enumerate_all exGraphCDE (by decide)).1,
   (C1_enumerate_all exGraphCDE (by decide)).2.1⟩

/-! ### Shared lemmas for the single-region query -/

/-- Well-formedness can be established componentwise. -/
theorem NxGraph.wfB_intro {g : NxGraph}
    (h1 : ∀ p ∈ g.nodes, ∃ r, p.2 = some r ∧ r.id = p.1 ∧ r.valid ∧
      r.dimension = g.dimension)
    (h2 : g.nodeIds.Nodup)
    (h3 : ∀ e ∈ g.edges, ∃ a b, g.region e.u = some a ∧
      g.region e.v = some b ∧ a.overlaps b = true) :
    g.wfB = true := by
  unfold NxGraph.wfB
  rw [Bool.and_eq_true, Bool.and_eq_true, List.all_eq_true, List.all_eq_true]
  refine ⟨⟨?_, by simpa using h2⟩, ?_⟩
  · intro p hp
    obtain ⟨r, hr, hrid, hrv, hrd⟩ := h1 p hp
    rw [hr]
    simp [hrid, hrv, hrd]
  · intro e he
    obtain ⟨a, b, hu, hv, hov⟩ := h3 e he
    rw [hu, hv]
    exact hov

theorem filter_fst_map (ids : List String) :
    ∀ l : List (String × Option Region),
    (l.filter (fun p => ids.contains p.1)).map Prod.fst =
      (l.map Prod.fst).filter (fun k => ids.contains k) := by
  intro l
  induction l with
  | nil => rfl
  | cons x l ih =>
    rw [List.filter_cons, List.map_cons, List.filter_cons]
    by_cases h : ids.contains x.1 = true
    · rw [if_pos h, if_pos h, List.map_cons, ih]
    · rw [if_neg h, if_neg h, ih]

theorem NxGraph.nodeIds_induced (g : NxGraph) (ids : List String) :
    (g.induced ids).nodeIds = g.nodeIds.filter (fun k => ids.contains k) :=
  filter_fst_map ids g.nodes

/-- A first match survives filtering by a predicate it satisfies. -/
theorem find?_filter_first {α : Type} {l : List α} {pr q : α → Bool} {p : α}
    (hf : l.find? pr = some p) (hq : q p = true) :
    (l.filter q).find? pr = some p := by
  induction l with
  | nil => cases hf
  | cons x l ih =>
    by_cases hx : pr x = true
    · rw [List.find?_cons_of_pos _ hx] at hf
      obtain rfl := Option.some.inj hf
      rw [List.filter_cons, if_pos hq, List.find?_cons_of_pos _ hx]
    · rw [List.find?_cons_of_neg _ hx] at hf
      rw [List.filter_cons]
      by_cases hqx : q x = true
      · rw [if_pos hqx, List.find?_cons_of_neg _ hx]
        exact ih hf
      · rw [if_neg hqx]
        exact ih hf

/-- The induced subgraph agrees with the graph on the region of every node
it keeps. -/
theorem NxGraph.induced_region {g : NxGraph} {ids : List String} {k : String}
    {r : Region} (hr : g.region k = some r) (hk : ids.contains k = true) :
    (g.induced ids).region k = some r := by
  unfold NxGraph.region at hr
  cases hf : g.nodes.find? (·.1 == k) with
  | none => rw [hf] at hr; cases hr
  | some p =>
    rw [hf] at hr
    simp only [Option.some_bind] at hr
    have hpk : p.1 = k := by simpa using List.find?_some hf
    have hfirst := @find?_filter_first _ g.nodes _
      (fun q => ids.contains q.1) p hf
      (by show ids.contains p.1 = true; rw [hpk]; exact hk)
    show ((g.nodes.filter fun q => ids.contains q.1).find? (·.1 == k)).bind
      (·.2) = some r
    rw [hfirst]
    simp only [Option.some_bind]
    exact hr

theorem NxGraph.induced_regionD {g : NxGraph} {ids : List String} {k : String}
    (hwf : g.wfB = true) (hk : k ∈ (g.induced ids).nodeIds) :
    (g.induced ids).region k = g.region k ∧
      (g.induced ids).regionD k = g.regionD k := by
  rw [NxGraph.nodeIds_induced, List.mem_filter] at hk
  obtain ⟨hkg, hkc⟩ := hk
  obtain ⟨hreg, -, -, -⟩ := NxGraph.region_of_mem hwf hkg
  have h2 := NxGraph.induced_region hreg hkc
  exact ⟨by rw [h2, hreg], by rw [NxGraph.regionD_eq h2,
    NxGraph.regionD_eq hreg]⟩

/-- The induced subgraph of a well-formed graph is well-formed. -/
theorem NxGraph.induced_wf {g : NxGraph} (hwf : g.wfB = true)
    (ids : List String) : (g.induced ids).wfB = true := by
  obtain ⟨h1, h2, h3⟩ := NxGraph.wfB_spec hwf
  apply NxGraph.wfB_intro
  · intro p hp
    have hp2 := List.mem_of_mem_filter hp
    exact h1 p hp2
  · rw [NxGraph.nodeIds_induced]
    exact h2.filter _
  · intro e he
    have he1 : e ∈ g.edges.filter fun e =>
        ids.contains e.u && ids.contains e.v := he
    rw [List.mem_filter, Bool.and_eq_true] at he1
    obtain ⟨he2, hcu, hcv⟩ := he1
    obtain ⟨a, b, hu, hv, hov⟩ := h3 e he2
    exact ⟨a, b, NxGraph.induced_region hu hcu,
      NxGraph.induced_region hv hcv, hov⟩

/-- A clique of an induced subgraph is a clique of the graph. -/
theorem NxGraph.clique_sub_to_g {g : NxGraph} {ids : List String}
    {c : List String} (hc : c ∈ (g.induced ids).cliquesGe2) :
    c ∈ g.cliquesGe2 := by
  rw [NxGraph.mem_cliquesGe2] at hc ⊢
  obtain ⟨hsub, hpw, hlen⟩ := hc
  refine ⟨?_, ?_, hlen⟩
  · rw [NxGraph.nodeIds_induced] at hsub
    exact hsub.trans (List.filter_sublist _)
  · refine hpw.imp ?_
    intro a b hadj
    rw [NxGraph.adj_exists] at hadj ⊢
    obtain ⟨e, he, hm⟩ := hadj
    exact ⟨e, List.mem_of_mem_filter he, hm⟩

/-- A clique containing r lives in the subgraph induced by r and its
neighbors. -/
theorem NxGraph.clique_g_to_sub {g : NxGraph} {rid : String}
    {c : List String} (hc : c ∈ g.cliquesGe2) (hrid : rid ∈ c) :
    c ∈ (g.induced (rid :: g.neighbors rid)).cliquesGe2 := by
  rw [NxGraph.mem_cliquesGe2] at hc ⊢
  obtain ⟨hsub, hpw, hlen⟩ := hc
  have hall : ∀ k ∈ c, k ∈ rid :: g.neighbors rid := by
    intro k hk
    by_cases hkr : k = rid
    · exact hkr ▸ List.mem_cons_self _ _
    · have hsymm : Symmetric (fun a b : String => g.adj a b = true) :=
        fun a b h => NxGraph.adj_symm h
      have hadj : g.adj rid k = true :=
        hpw.forall hsymm hrid hk (fun h => hkr h.symm)
      refine List.mem_cons_of_mem _ ?_
      rw [NxGraph.neighbors, List.mem_filter]
      exact ⟨hsub.subset hk, hadj⟩
  have hallc : ∀ k ∈ c, (rid :: g.neighbors rid).contains k = true :=
    fun k hk => List.elem_iff.mpr (hall k hk)
  refine ⟨?_, ?_, hlen⟩
  · rw [NxGraph.nodeIds_induced]
    have hfe : c.filter (fun k => (rid :: g.neighbors rid).contains k) = c :=
      List.filter_eq_self.mpr hallc
    exact hfe ▸ hsub.filter _
  · have hpw2 := List.Pairwise.and_mem.mp hpw
    refine hpw2.imp ?_
    intro a b hab
    obtain ⟨ha, hb, hadj⟩ := hab
    rw [NxGraph.adj_exists] at hadj ⊢
    obtain ⟨e, he, hm⟩ := hadj
    refine ⟨e, ?_, hm⟩
    show e ∈ g.edges.filter fun e =>
      (rid :: g.neighbors rid).contains e.u &&
        (rid :: g.neighbors rid).contains e.v
    rw [List.mem_filter]
    refine ⟨he, ?_⟩
    rw [Bool.and_eq_true]
    have hcase : (e.u = a ∧ e.v = b) ∨ (e.u = b ∧ e.v = a) := by
      unfold edgeMatch at hm
      rw [Bool.or_eq_true, Bool.and_eq_true, Bool.and_eq_true] at hm
      simpa using hm
    rcases hcase with ⟨hu, hv⟩ | ⟨hu, hv⟩
    · exact ⟨hu ▸ hallc a ha, hv ▸ hallc b hb⟩
    · exact ⟨hu ▸ hallc b hb, hv ▸ hallc a ha⟩

/-- On a clique kept by the induced subgraph both graphs produce the same
(intersection, members) pair. -/
theorem NxGraph.induced_cliquePair {g : NxGraph} (hwf : g.wfB = true)
    {ids : List String} {c : List String}
    (hc : c ∈ (g.induced ids).cliquesGe2) :
    (g.induced ids).cliquePair c = g.cliquePair c := by
  have hsubl := (NxGraph.mem_cliquesGe2.mp hc).1
  have hmapeq : c.map (g.induced ids).regionD = c.map g.regionD := by
    apply List.map_congr_left
    intro k hk
    exact (NxGraph.induced_regionD hwf (hsubl.subset hk)).2
  unfold NxGraph.cliquePair
  rw [hmapeq]

/-- In a well-formed graph, r's region is among a clique's member regions
exactly when r itself is in the clique. -/
theorem NxGraph.rr_mem_pair {g : NxGraph} (hwf : g.wfB = true)
    {rid : String} (hrid : rid ∈ g.nodeIds) {c : List String}
    (hc : c ∈ g.cliquesGe2) :
    g.regionD rid ∈ (g.cliquePair c).2 ↔ rid ∈ c := by
  obtain ⟨hsub, -, -⟩ := NxGraph.mem_cliquesGe2.mp hc
  show g.regionD rid ∈ c.map g.regionD ↔ rid ∈ c
  rw [List.mem_map]
  constructor
  · rintro ⟨k, hk, hkeq⟩
    have hkid : (g.regionD k).id = k :=
      (NxGraph.region_of_mem hwf (hsub.subset hk)).2.1
    have hrid2 : (g.regionD rid).id = rid :=
      (NxGraph.region_of_mem hwf hrid).2.1
    have : k = rid := by rw [← hkid, hkeq, hrid2]
    exact this ▸ hk
  · intro h
    exact ⟨rid, h, rfl⟩

/-! ### Claim C2 -/

/-- C2: for every well-formed region intersection graph and node r, the
single-region query succeeds and returns exactly those
(intersection, parents) pairs of the all-intersections enumeration whose
parent list contains r's region — restricting to the subgraph induced by r
and its neighbors, then retaining results containing r's region, loses no
such pair and adds none. -/
theorem C2_single_region_query (g : NxGraph) (rid : String)
    (hwf : g.wfB = true) (hnode : g.hasNode rid = true) :
    ∃ rr L L2, g.region rid = some rr ∧ g.enumCompute = some L ∧
      g.srqCompute rid = some L2 ∧ ∀ p, p ∈ L2 ↔ p ∈ L ∧ rr ∈ p.2 := by
  have hridmem : rid ∈ g.nodeIds := NxGraph.hasNode_iff.mp hnode
  obtain ⟨hrr, -, -, -⟩ := NxGraph.region_of_mem hwf hridmem
  have hsubwf : (g.induced (rid :: g.neighbors rid)).wfB = true :=
    NxGraph.induced_wf hwf _
  obtain ⟨hgC, -⟩ := NxGraph.enumCompute_eq hwf
  obtain ⟨hsC, -⟩ := NxGraph.enumCompute_eq hsubwf
  have hsrq : g.srqCompute rid = some
      (((g.induced (rid :: g.neighbors rid)).cliquesGe2.map
          (g.induced (rid :: g.neighbors rid)).cliquePair).filter
        fun p => decide (g.regionD rid ∈ p.2)) := by
    unfold NxGraph.srqCompute
    rw [if_neg (by rw [hnode]; decide)]
    show (g.region rid >>= fun rr =>
        (g.induced (rid :: g.neighbors rid)).enumCompute >>= fun L =>
          pure (L.filter fun p => decide (rr ∈ p.2))) = _
    simp only [Option.bind_eq_bind]
    rw [hrr]
    simp only [Option.some_bind]
    rw [hsC]
    simp only [Option.some_bind]
    rfl
  refine ⟨g.regionD rid, _, _, hrr, hgC, hsrq, ?_⟩
  intro p
  rw [List.mem_filter]
  constructor
  · rintro ⟨hpmem, hpdec⟩
    rw [List.mem_map] at hpmem
    obtain ⟨c, hc, rfl⟩ := hpmem
    have hcg : c ∈ g.cliquesGe2 := NxGraph.clique_sub_to_g hc
    have hpair := NxGraph.induced_cliquePair hwf hc
    rw [hpair] at hpdec ⊢
    exact ⟨List.mem_map.mpr ⟨c, hcg, rfl⟩, of_decide_eq_true hpdec⟩
  · rintro ⟨hpmem, hprr⟩
    rw [List.mem_map] at hpmem
    obtain ⟨c, hc, rfl⟩ := hpmem
    have hrid_in : rid ∈ c := (NxGraph.rr_mem_pair hwf hridmem hc).mp hprr
    have hcsub := NxGraph.clique_g_to_sub hc hrid_in
    have hpair := NxGraph.induced_cliquePair hwf hcsub
    exact ⟨List.mem_map.mpr ⟨c, hcsub, hpair⟩, decide_eq_true hprr⟩

/-- C2 witness: on the triangle graph over c, d, e the single-region query
for e returns exactly the enumeration results containing e's region. -/
theorem C2_single_region_query_witness :
    exGraphCDE.wfB = true ∧ exGraphCDE.hasNode "e" = true ∧
    (∃ rr L L2, exGraphCDE.region "e" = some rr ∧
      exGraphCDE.enumCompute = some L ∧
      exGraphCDE.srqCompute "e" = some L2 ∧
      ∀ p, p ∈ L2 ↔ p ∈ L ∧ rr ∈ p.2) :=
  ⟨by decide, by decide,
   C2_single_region_query exGraphCDE "e" (by decide) (by decide)⟩

end OverlapGraph
